import Mathlib

/-!
Verification of the Hearts rules engine in app/game.py.

The Python module is shallowly embedded: cards are pairs of rank and suit
characters (mirroring the two-character card strings), Python dictionaries
become association lists that preserve insertion order, and the two
validated entry points (submit_pass, play_card) return an Option value in
which none models an uncaught Python exception escaping the call.
-/

namespace Hearts

/-- A card, mirroring the two character strings of game.py: index 0 is the
rank character, index 1 is the suit character. -/
structure Card where
  rank : Char
  suit : Char
deriving DecidableEq, Repr

/-- SUITS list from game.py. -/
def SUITS : List Char := ['C', 'D', 'S', 'H']

/-- RANKS list from game.py. -/
def RANKS : List Char := ['2', '3', '4', '5', '6', '7', '8', '9', 'T', 'J', 'Q', 'K', 'A']

/-- RANK_VALUE dictionary: position of a rank character in RANKS. -/
def rankValue (r : Char) : Nat := RANKS.indexOf r

/-- SUITS.index, used for the canonical hand sort key. -/
def suitIndex (su : Char) : Nat := SUITS.indexOf su

/-- make_deck from game.py: all 52 rank-suit combinations, suits outermost. -/
def make_deck : List Card :=
  (SUITS.map (fun su => RANKS.map (fun r => Card.mk r su))).flatten

/-- The two of clubs, the card written as the string literal in game.py. -/
def two_clubs : Card := ⟨'2', 'C'⟩

/-- card_points from game.py: each heart is one point, the queen of spades
is thirteen, every other card is zero. -/
def card_points (c : Card) : Int :=
  if c.suit = 'H' then 1
  else if c = ⟨'Q', 'S'⟩ then 13
  else 0

/-- is_point_card from game.py. -/
def is_point_card (c : Card) : Bool := decide (0 < card_points c)

/-! ### Association lists standing in for Python dictionaries

Python dictionaries preserve insertion order; assignment to an existing key
updates the value in place, assignment to a fresh key appends.  The model
uses lists of key-value pairs with exactly that behaviour. -/

/-- Dictionary lookup: value of the first entry with the given key. -/
def dlookup {α : Type} : List (String × α) → String → Option α
  | [], _ => none
  | (k, v) :: rest, key => if k = key then some v else dlookup rest key

/-- Python dict.get with a default value. -/
def dget {α : Type} (d : List (String × α)) (key : String) (dflt : α) : α :=
  (dlookup d key).getD dflt

/-- Python dictionary assignment: update the entry in place when the key is
present, append a new entry otherwise. -/
def dset {α : Type} : List (String × α) → String → α → List (String × α)
  | [], key, v => [(key, v)]
  | (k, w) :: rest, key, v =>
      if k = key then (k, v) :: rest else (k, w) :: dset rest key v

/-- Update the value at a key with a function; no change when the key is
absent (call sites in the model only reach this with the key present). -/
def dmodify {α : Type} : List (String × α) → String → (α → α) → List (String × α)
  | [], _, _ => []
  | (k, w) :: rest, key, f =>
      if k = key then (k, f w) :: rest else (k, w) :: dmodify rest key f

/-- Key list of a dictionary. -/
def dkeys {α : Type} (d : List (String × α)) : List String := d.map Prod.fst

/-- Value list of a dictionary. -/
def dvalues {α : Type} (d : List (String × α)) : List α := d.map Prod.snd

/-- Build a dictionary giving every key in the list the same value, in list
order, as the comprehensions of game.py do. -/
def dinit {α : Type} (ks : List String) (v : α) : List (String × α) :=
  ks.foldl (fun d k => dset d k v) []

/-! ### Pure helpers of game.py -/

/-- Comparison underlying the canonical hand order of game.py:
the sort key is the pair of suit index and rank value. -/
def cardKeyLe (a b : Card) : Bool :=
  if suitIndex a.suit = suitIndex b.suit then decide (rankValue a.rank ≤ rankValue b.rank)
  else decide (suitIndex a.suit ≤ suitIndex b.suit)

/-- hand.sort with the key used throughout game.py: a stable sort by the
pair of suit index and rank value (insertion sort, so that the model
evaluates by kernel reduction; the order produced agrees with Python since
distinct cards never share a sort key). -/
def sortHand (h : List Card) : List Card :=
  h.insertionSort (fun a b => cardKeyLe a b = true)

/-- PlayerState dataclass from game.py. -/
structure PlayerState where
  id : String
  name : String
  is_bot : Bool
deriving DecidableEq, Repr

/-- Round-robin dealing loop of deal_hands: card number i goes to the hand
of the player at position i modulo the number of players. -/
def dealLoop (players : List PlayerState) :
    Nat → List Card → List (String × List Card) → List (String × List Card)
  | _, [], hands => hands
  | i, c :: rest, hands =>
      dealLoop players (i + 1) rest
        (dmodify hands (players.getD (i % players.length) ⟨"", "", false⟩).id (fun h => h ++ [c]))

/-- deal_hands from game.py, with the shuffled deck passed explicitly in
place of random.shuffle: empty hands for every player, round-robin deal,
then each hand sorted into canonical order. -/
def deal_hands (players : List PlayerState) (deck : List Card) : List (String × List Card) :=
  let hands := dinit (players.map PlayerState.id) []
  let hands := dealLoop players 0 deck hands
  hands.map (fun kv => (kv.1, sortHand kv.2))

/-- find_two_clubs_player from game.py: the first hand containing the two
of clubs, in dictionary order. -/
def find_two_clubs_player : List (String × List Card) → Option String
  | [] => none
  | (pid, hand) :: rest =>
      if two_clubs ∈ hand then some pid else find_two_clubs_player rest

/-- The scanning loop of trick_winner: keep the current winning pair,
replace it only by a strictly higher card of the lead suit. -/
def trick_winner_loop (lead : Char) :
    (String × Card) → List (String × Card) → String × Card
  | winning, [] => winning
  | winning, (pid, c) :: rest =>
      if c.suit ≠ lead then trick_winner_loop lead winning rest
      else if rankValue winning.2.rank < rankValue c.rank then
        trick_winner_loop lead (pid, c) rest
      else trick_winner_loop lead winning rest

/-- trick_winner from game.py; none models the IndexError raised on an
empty trick. -/
def trick_winner : List (String × Card) → Option String
  | [] => none
  | t0 :: rest => some (trick_winner_loop t0.2.suit t0 rest).1

/-- pass_map from game.py: direction 0 passes to the next seat, 1 to the
previous seat, 2 across, anything else to the seat itself. -/
def pass_map (players : List PlayerState) (direction : Nat) : List (String × String) :=
  let order := players.map PlayerState.id
  let size := order.length
  order.enum.foldl (fun m ip =>
    let idx := ip.1
    let pid := ip.2
    let target :=
      if direction = 0 then order.getD ((idx + 1) % size) ""
      else if direction = 1 then order.getD ((idx + size - 1) % size) ""
      else if direction = 2 then order.getD ((idx + 2) % size) ""
      else pid
    dset m pid target) []

/-- legal_moves from game.py. -/
def legal_moves (hand : List Card) (trick : List (String × Card))
    (hearts_broken is_first_trick : Bool) : List Card :=
  match hand with
  | [] => []
  | h0 :: _ =>
    match trick with
    | [] =>
      if is_first_trick then
        (if two_clubs ∈ hand then [two_clubs] else [h0])
      else if hearts_broken then hand
      else
        let non_hearts := hand.filter (fun c => c.suit != 'H')
        if non_hearts.isEmpty then hand else non_hearts
    | (_, c0) :: _ =>
      let lead := c0.suit
      let suited := hand.filter (fun c => c.suit == lead)
      if suited.isEmpty then
        (if is_first_trick then
          let non_points := hand.filter (fun c => !(is_point_card c))
          if non_points.isEmpty then hand else non_points
        else hand)
      else suited

/-! ### Game state and the HeartsGame operations -/

/-- GameState dataclass from game.py.  Dictionaries keyed by player id are
association lists; current_turn and winner_id are Optional strings. -/
structure GameState where
  players : List PlayerState
  scores : List (String × Int)
  hands : List (String × List Card)
  hearts_broken : Bool
  trick : List (String × Card)
  last_trick : List (String × Card)
  current_turn : Option String
  round_index : Nat
  trick_index : Nat
  phase : String
  pass_dir : Nat
  pending_pass : List (String × List Card)
  taken_points_round : List (String × Int)
  winner_id : Option String
deriving DecidableEq, Repr

/-- HeartsGame.__init__: fresh GameState with every score zero. -/
def initGame (players : List PlayerState) : GameState :=
  { players := players
    scores := dinit (players.map PlayerState.id) 0
    hands := []
    hearts_broken := false
    trick := []
    last_trick := []
    current_turn := none
    round_index := 0
    trick_index := 0
    phase := "lobby"
    pass_dir := 0
    pending_pass := []
    taken_points_round := []
    winner_id := none }

/-- HeartsGame.start_round, with the shuffled deck passed explicitly. -/
def start_round (s : GameState) (deck : List Card) : GameState :=
  let s := { s with
    hands := deal_hands s.players deck
    trick := []
    last_trick := []
    hearts_broken := false
    trick_index := 0
    pending_pass := []
    taken_points_round := dinit (s.players.map PlayerState.id) 0
    pass_dir := s.round_index % 4 }
  if s.pass_dir = 3 then
    { s with phase := "playing", current_turn := find_two_clubs_player s.hands }
  else
    { s with phase := "passing", current_turn := none }

/-- Python list.remove: drop the first occurrence of the card, none models
the ValueError raised when the card is absent. -/
def remove_one (hand : List Card) (c : Card) : Option (List Card) :=
  if c ∈ hand then some (hand.erase c) else none

/-- Remove a list of cards one by one, as the inner loop of the pass
exchange does with hands[pid].remove(card). -/
def remove_list : List Card → List Card → Option (List Card)
  | hand, [] => some hand
  | hand, c :: rest =>
      match remove_one hand c with
      | none => none
      | some h => remove_list h rest

/-- First loop of the pass exchange: for every pending entry remove its
chosen cards from the submitting seat's hand.  none models the KeyError or
ValueError a missing key or card would raise. -/
def removeAllPending :
    List (String × List Card) → List (String × List Card) → Option (List (String × List Card))
  | hands, [] => some hands
  | hands, (pid, cs) :: rest =>
      match dlookup hands pid with
      | none => none
      | some h =>
        match remove_list h cs with
        | none => none
        | some h' => removeAllPending (dset hands pid h') rest

/-- Second loop of the pass exchange: extend each receiver's hand with the
cards passed to it. -/
def extendAllPending (mapping : List (String × String)) :
    List (String × List Card) → List (String × List Card) → Option (List (String × List Card))
  | hands, [] => some hands
  | hands, (pid, cs) :: rest =>
      match dlookup mapping pid with
      | none => none
      | some target =>
        match dlookup hands target with
        | none => none
        | some h => extendAllPending mapping (dset hands target (h ++ cs)) rest

/-- HeartsGame.submit_pass.  The result is none when the Python code would
let an exception escape (possible during the exchange), otherwise the next
state together with the returned boolean. -/
def submit_pass (s : GameState) (player_id : String) (cards : List Card) :
    Option (GameState × Bool) :=
  if s.phase ≠ "passing" then some (s, false)
  else if cards.length ≠ 3 then some (s, false)
  else
    let hand := dget s.hands player_id []
    if cards.any (fun c => decide (c ∉ hand)) then some (s, false)
    else
      let s := { s with pending_pass := dset s.pending_pass player_id cards }
      if s.pending_pass.length < s.players.length then some (s, true)
      else
        let mapping := pass_map s.players s.pass_dir
        match removeAllPending s.hands s.pending_pass with
        | none => none
        | some hands1 =>
          match extendAllPending mapping hands1 s.pending_pass with
          | none => none
          | some hands2 =>
            let hands3 := hands2.map (fun kv => (kv.1, sortHand kv.2))
            some ({ s with
              hands := hands3
              pending_pass := []
              phase := "playing"
              current_turn := find_two_clubs_player hands3 }, true)

/-- HeartsGame.next_player: the seat after the given one in player order;
none models the ValueError of list.index on an unknown id. -/
def next_player (s : GameState) (player_id : String) : Option String :=
  let order := s.players.map PlayerState.id
  match order.indexOf? player_id with
  | none => none
  | some idx => some (order.getD ((idx + 1) % order.length) "")

/-- Python max over a list of values with a default for the empty list. -/
def pyMaxD (l : List Int) (dflt : Int) : Int :=
  match l with
  | [] => dflt
  | x :: xs => xs.foldl max x

/-- The scanning loop of Python min with a key function: keep the current
best key, replace it only on a strictly smaller value. -/
def pyMinKeyLoop : String → Int → List (String × Int) → String
  | bk, _, [] => bk
  | bk, bv, (k, v) :: rest =>
      if v < bv then pyMinKeyLoop k v rest else pyMinKeyLoop bk bv rest

/-- min(scores, key=scores.get): the first key holding the minimal value;
none for the empty dictionary, where Python would raise. -/
def pyMinKey : List (String × Int) → Option String
  | [] => none
  | (k, v) :: rest => some (pyMinKeyLoop k v rest)

/-- The moon-shooter search loop of finish_round: the first seat whose
captured points equal 26. -/
def find_moon_shooter : List (String × Int) → Option String
  | [] => none
  | (pid, pts) :: rest => if pts = 26 then some pid else find_moon_shooter rest

/-- Python truthiness of an Optional string: None and the empty string are
falsy, as in the if moon_shooter test of finish_round. -/
def pyTruthyStr (o : Option String) : Bool :=
  match o with
  | none => false
  | some str => !str.isEmpty

/-- The non-moon scoring loop of finish_round: scores[pid] += points for
every entry of taken_points_round.  A key missing from scores is left
alone where Python would raise KeyError; the call site always has aligned
keys. -/
def applyTaken (scores : List (String × Int)) : List (String × Int) → List (String × Int)
  | [] => scores
  | (pid, pts) :: rest => applyTaken (dmodify scores pid (· + pts)) rest

/-- HeartsGame.finish_round. -/
def finish_round (s : GameState) : GameState :=
  let s := { s with phase := "round_end" }
  let moon := find_moon_shooter s.taken_points_round
  let s :=
    if pyTruthyStr moon then
      match moon with
      | some shooter =>
          { s with scores := s.scores.map (fun kv =>
              if kv.1 = shooter then kv else (kv.1, kv.2 + 26)) }
      | none => s
    else
      { s with scores := applyTaken s.scores s.taken_points_round }
  let s := { s with round_index := s.round_index + 1 }
  if 100 ≤ pyMaxD (dvalues s.scores) 0 then
    { s with phase := "game_over", winner_id := pyMinKey s.scores }
  else s

/-- First statement of the mutation part of play_card: a play that opens a
new trick clears last_trick. -/
def play_state1 (s : GameState) : GameState :=
  if s.trick.isEmpty then { s with last_trick := [] } else s

/-- Second statement: remove the card from the hand and append the play to
the trick. -/
def play_state2 (s : GameState) (player_id : String) (card : Card) (hand : List Card) :
    GameState :=
  { s with
    hands := dset s.hands player_id (hand.erase card)
    trick := s.trick ++ [(player_id, card)] }

/-- Third statement: a played heart breaks hearts. -/
def play_state3 (s : GameState) (card : Card) : GameState :=
  if card.suit = 'H' then { s with hearts_broken := true } else s

/-- The completed-trick tail of play_card: score the trick to its winner,
clear it, hand the turn to the winner and either finish the round or
advance the trick counter. -/
def play_card_complete (s : GameState) : Option (GameState × Bool) :=
  match trick_winner s.trick with
  | none => none
  | some winner =>
    let points := (s.trick.map (fun pc => card_points pc.2)).sum
    let s := { s with
      taken_points_round := dmodify s.taken_points_round winner (· + points)
      last_trick := s.trick
      trick := []
      current_turn := some winner }
    if s.hands.all (fun kv => kv.2.isEmpty) then
      some (finish_round s, true)
    else
      some ({ s with trick_index := s.trick_index + 1 }, true)

/-- The mutation part of play_card, reached once every validation has
passed. -/
def play_card_exec (s : GameState) (player_id : String) (card : Card) (hand : List Card) :
    Option (GameState × Bool) :=
  let s := play_state3 (play_state2 (play_state1 s) player_id card hand) card
  if s.trick.length < s.players.length then
    match next_player s player_id with
    | none => none
    | some np => some ({ s with current_turn := some np }, true)
  else
    play_card_complete s

/-- HeartsGame.play_card.  none models an escaping exception; the next
state and returned boolean otherwise. -/
def play_card (s : GameState) (player_id : String) (card : Card) :
    Option (GameState × Bool) :=
  if s.phase ≠ "playing" then some (s, false)
  else if s.current_turn ≠ some player_id then some (s, false)
  else
    let hand := dget s.hands player_id []
    if card ∉ hand then some (s, false)
    else
      let is_first_trick := decide (s.trick_index = 0)
      let legal := legal_moves hand s.trick s.hearts_broken is_first_trick
      if card ∉ legal then some (s, false)
      else
        play_card_exec s player_id card hand

/-- HeartsGame.start_next_round, with the deck for the new deal passed
explicitly. -/
def start_next_round (s : GameState) (deck : List Card) : GameState × Bool :=
  if s.phase ≠ "round_end" then (s, false) else (start_round s deck, true)

/-- HeartsGame.get_legal_moves. -/
def get_legal_moves (s : GameState) (player_id : String) : List Card :=
  legal_moves (dget s.hands player_id []) s.trick s.hearts_broken (decide (s.trick_index = 0))

/-! ### Reachability through the four entry points

A step is one call to start_round, submit_pass, play_card or
start_next_round that does not raise; decks handed to a deal are
permutations of the 52 card deck, as random.shuffle produces. -/

/-- One state transition of the HeartsGame entry points. -/
inductive Step : GameState → GameState → Prop
  | stepStart (s : GameState) (deck : List Card) (hdeck : deck.Perm make_deck) :
      Step s (start_round s deck)
  | stepPass (s : GameState) (pid : String) (cards : List Card) (s' : GameState) (b : Bool)
      (h : submit_pass s pid cards = some (s', b)) : Step s s'
  | stepPlay (s : GameState) (pid : String) (card : Card) (s' : GameState) (b : Bool)
      (h : play_card s pid card = some (s', b)) : Step s s'
  | stepNext (s : GameState) (deck : List Card) (s' : GameState) (b : Bool)
      (hdeck : deck.Perm make_deck) (h : start_next_round s deck = (s', b)) : Step s s'

/-- States reachable from a freshly constructed HeartsGame for the given
players through the four entry points. -/
def Reachable (players : List PlayerState) (s : GameState) : Prop :=
  Relation.ReflTransGen Step (initGame players) s

/-- A scripted driver used to exhibit concrete reachable states: during the
passing phase the first seat that still owes a pass submits the first three
cards of its hand, during the playing phase the seat to act plays its first
legal card. -/
def oneAuto (s : GameState) : Option GameState :=
  if s.phase = "passing" then
    match s.players.find? (fun p => (dlookup s.pending_pass p.id).isNone) with
    | none => none
    | some p => (submit_pass s p.id ((dget s.hands p.id []).take 3)).map Prod.fst
  else if s.phase = "playing" then
    match s.current_turn with
    | none => none
    | some pid =>
      match get_legal_moves s pid with
      | [] => none
      | c :: _ => (play_card s pid c).map Prod.fst
  else none

/-- Iterate the scripted driver a bounded number of times. -/
def autoRun : Nat → GameState → GameState
  | 0, s => s
  | n + 1, s =>
      match oneAuto s with
      | some s' => autoRun n s'
      | none => s

/-- Four concrete seats used for the concrete game evaluations. -/
def ps4 : List PlayerState :=
  [⟨"A", "Alice", false⟩, ⟨"B", "Bert", false⟩, ⟨"C", "Cleo", false⟩, ⟨"D", "Drew", false⟩]

/-! ### Basic facts about the card model -/

/-- A card is a point card exactly when it is a heart or the queen of
spades. -/
lemma is_point_card_iff (c : Card) :
    is_point_card c = true ↔ (c.suit = 'H' ∨ c = ⟨'Q', 'S'⟩) := by
  unfold is_point_card card_points
  split
  · simp_all
  · split
    · simp_all
    · simp_all

/-- C5 claim, empty-trick case of legal_moves.  On the first trick a hand
holding the two of clubs must lead it, and any other hand leads some single
card; on later tricks the whole hand is legal once hearts are broken, and
before that exactly the non-heart cards, the whole hand when it is all
hearts.  The empty hand and the concrete two-of-clubs example are included. -/
theorem c5_legal_moves_lead (hand : List Card) (hearts_broken is_first_trick : Bool)
    (hne : hand ≠ []) :
    (is_first_trick = true → two_clubs ∈ hand →
      legal_moves hand [] hearts_broken is_first_trick = [two_clubs])
    ∧ (is_first_trick = true → two_clubs ∉ hand →
      ∃ c, c ∈ hand ∧ legal_moves hand [] hearts_broken is_first_trick = [c])
    ∧ (is_first_trick = false → hearts_broken = true →
      legal_moves hand [] hearts_broken is_first_trick = hand)
    ∧ (is_first_trick = false → hearts_broken = false → (∃ c ∈ hand, c.suit ≠ 'H') →
      ∀ c, c ∈ legal_moves hand [] hearts_broken is_first_trick ↔ c ∈ hand ∧ c.suit ≠ 'H')
    ∧ (is_first_trick = false → hearts_broken = false → (∀ c ∈ hand, c.suit = 'H') →
      legal_moves hand [] hearts_broken is_first_trick = hand)
    ∧ (∀ hb ft : Bool, legal_moves [] [] hb ft = [])
    ∧ legal_moves [⟨'2', 'C'⟩, ⟨'A', 'H'⟩] [] false true = [two_clubs] := by
  obtain ⟨h0, tl, rfl⟩ : ∃ h0 tl, hand = h0 :: tl := by
    cases hand with
    | nil => exact absurd rfl hne
    | cons h0 tl => exact ⟨h0, tl, rfl⟩
  refine ⟨?_, ?_, ?_, ?_, ?_, ?_, ?_⟩
  · intro hf h2
    simp [legal_moves, hf, h2]
  · intro hf h2
    refine ⟨h0, List.mem_cons_self _ _, ?_⟩
    simp [legal_moves, hf, h2]
  · intro hf hb
    simp [legal_moves, hf, hb]
  · intro hf hb hex c
    have hne' : (h0 :: tl).filter (fun c => c.suit != 'H') ≠ [] := by
      obtain ⟨c', hc', hsu⟩ := hex
      intro hnil
      have hmem : c' ∈ (h0 :: tl).filter (fun c => c.suit != 'H') :=
        List.mem_filter.mpr ⟨hc', by simpa using hsu⟩
      rw [hnil] at hmem
      exact absurd hmem (List.not_mem_nil _)
    simp only [legal_moves, hf, hb, Bool.false_eq_true, if_false]
    rw [if_neg (by simpa [List.isEmpty_iff] using hne')]
    simp [List.mem_filter]
  · intro hf hb hall
    have : (h0 :: tl).filter (fun c => c.suit != 'H') = [] := by
      rw [List.filter_eq_nil_iff]
      intro c hc
      simpa using hall c hc
    simp [legal_moves, hf, hb, this]
  · intro hb ft
    rfl
  · rfl

/-- C6 claim, non-empty-trick case of legal_moves.  A hand holding the lead
suit may play exactly those cards; a void hand on the first trick plays
exactly its non-point cards unless it holds only point cards, and on later
tricks a void hand may play anything. -/
theorem c6_legal_moves_follow (hand : List Card) (t0 : String × Card)
    (trick : List (String × Card)) (hearts_broken is_first_trick : Bool)
    (hne : hand ≠ []) :
    ((∃ c ∈ hand, c.suit = t0.2.suit) →
      ∀ c, c ∈ legal_moves hand (t0 :: trick) hearts_broken is_first_trick ↔
        c ∈ hand ∧ c.suit = t0.2.suit)
    ∧ ((∀ c ∈ hand, c.suit ≠ t0.2.suit) → is_first_trick = true →
      (∃ c ∈ hand, is_point_card c = false) →
      ∀ c, c ∈ legal_moves hand (t0 :: trick) hearts_broken is_first_trick ↔
        c ∈ hand ∧ is_point_card c = false)
    ∧ ((∀ c ∈ hand, c.suit ≠ t0.2.suit) → is_first_trick = true →
      (∀ c ∈ hand, is_point_card c = true) →
      legal_moves hand (t0 :: trick) hearts_broken is_first_trick = hand)
    ∧ ((∀ c ∈ hand, c.suit ≠ t0.2.suit) → is_first_trick = false →
      legal_moves hand (t0 :: trick) hearts_broken is_first_trick = hand)
    ∧ (∀ c : Card, is_point_card c = true ↔ (c.suit = 'H' ∨ c = ⟨'Q', 'S'⟩)) := by
  obtain ⟨h0, tl, rfl⟩ : ∃ h0 tl, hand = h0 :: tl := by
    cases hand with
    | nil => exact absurd rfl hne
    | cons h0 tl => exact ⟨h0, tl, rfl⟩
  obtain ⟨p0, c0⟩ := t0
  refine ⟨?_, ?_, ?_, ?_, is_point_card_iff⟩
  · intro hex c
    have hne' : (h0 :: tl).filter (fun c => c.suit == c0.suit) ≠ [] := by
      obtain ⟨c', hc', hsu⟩ := hex
      intro hnil
      have hmem : c' ∈ (h0 :: tl).filter (fun c => c.suit == c0.suit) :=
        List.mem_filter.mpr ⟨hc', by simpa using hsu⟩
      rw [hnil] at hmem
      exact absurd hmem (List.not_mem_nil _)
    simp only [legal_moves]
    rw [if_neg (by simpa [List.isEmpty_iff] using hne')]
    simp [List.mem_filter]
  · intro hvoid hf hex c
    have hsuited : (h0 :: tl).filter (fun c => c.suit == c0.suit) = [] := by
      rw [List.filter_eq_nil_iff]
      intro c hc
      simpa using hvoid c hc
    have hne' : (h0 :: tl).filter (fun c => !(is_point_card c)) ≠ [] := by
      obtain ⟨c', hc', hnp⟩ := hex
      intro hnil
      have hmem : c' ∈ (h0 :: tl).filter (fun c => !(is_point_card c)) :=
        List.mem_filter.mpr ⟨hc', by simpa using hnp⟩
      rw [hnil] at hmem
      exact absurd hmem (List.not_mem_nil _)
    simp only [legal_moves, hsuited]
    rw [if_pos (show ([] : List Card).isEmpty = true from rfl), hf, if_pos rfl,
      if_neg (by simpa [List.isEmpty_iff] using hne')]
    simp [List.mem_filter]
  · intro hvoid hf hall
    have hsuited : (h0 :: tl).filter (fun c => c.suit == c0.suit) = [] := by
      rw [List.filter_eq_nil_iff]
      intro c hc
      simpa using hvoid c hc
    have hpts : (h0 :: tl).filter (fun c => !(is_point_card c)) = [] := by
      rw [List.filter_eq_nil_iff]
      intro c hc
      simpa using hall c hc
    simp [legal_moves, hsuited, hf, hpts]
  · intro hvoid hf
    have hsuited : (h0 :: tl).filter (fun c => c.suit == c0.suit) = [] := by
      rw [List.filter_eq_nil_iff]
      intro c hc
      simpa using hvoid c hc
    simp [legal_moves, hsuited, hf]

/-- Closed instance of the C5 theorem at a concrete hand, discharging its
hypotheses. -/
theorem c5_legal_moves_lead_witness :
    legal_moves [⟨'2', 'C'⟩, ⟨'A', 'H'⟩] [] false true = [two_clubs] :=
  (c5_legal_moves_lead [⟨'2', 'C'⟩, ⟨'A', 'H'⟩] false true (by decide)).1
    rfl (by decide)

/-- Closed instance of the C6 theorem at a concrete hand and trick,
discharging its hypotheses. -/
theorem c6_legal_moves_follow_witness :
    legal_moves [⟨'5', 'D'⟩, ⟨'2', 'H'⟩] [("A", ⟨'9', 'S'⟩)] false false =
      [⟨'5', 'D'⟩, ⟨'2', 'H'⟩] :=
  (c6_legal_moves_follow [⟨'5', 'D'⟩, ⟨'2', 'H'⟩] ("A", ⟨'9', 'S'⟩) [] false false
    (by decide)).2.2.2.1 (by decide) rfl

/-! ### C7: trick winner -/

/-- Specification of the trick_winner scanning loop: starting from a
current best pair of the lead suit, the result is an entry of the scanned
sequence, is of the lead suit, has maximal rank among its lead-suit
entries, and every entry strictly before it of the lead suit has strictly
smaller rank (the loop replaces the best pair only on a strict increase). -/
lemma trick_winner_loop_spec (lead : Char) (rest : List (String × Card)) :
    ∀ best : String × Card, best.2.suit = lead →
      ∃ pre w post, best :: rest = pre ++ w :: post
        ∧ trick_winner_loop lead best rest = w
        ∧ w.2.suit = lead
        ∧ (∀ e ∈ best :: rest, e.2.suit = lead → rankValue e.2.rank ≤ rankValue w.2.rank)
        ∧ (∀ e ∈ pre, e.2.suit = lead → rankValue e.2.rank < rankValue w.2.rank) := by
  induction rest with
  | nil =>
    intro best hb
    refine ⟨[], best, [], rfl, rfl, hb, ?_, ?_⟩
    · intro e he _
      have : e = best := by simpa using he
      rw [this]
    · intro e he _
      exact absurd he (List.not_mem_nil _)
  | cons ec rest ih =>
    intro best hb
    obtain ⟨pid, c⟩ := ec
    by_cases hcs : c.suit = lead
    · by_cases hlt : rankValue best.2.rank < rankValue c.rank
      · have hloop : trick_winner_loop lead best ((pid, c) :: rest) =
            trick_winner_loop lead (pid, c) rest := by
          simp [trick_winner_loop, hcs, hlt]
        obtain ⟨pre, w, post, hdec, hres, hw, hmax, hstrict⟩ := ih (pid, c) hcs
        have hcw : rankValue c.rank ≤ rankValue w.2.rank :=
          hmax (pid, c) (List.mem_cons_self _ _) hcs
        refine ⟨best :: pre, w, post, ?_, ?_, hw, ?_, ?_⟩
        · rw [List.cons_append, ← hdec]
        · rw [hloop, hres]
        · intro e he hel
          rcases List.mem_cons.mp he with rfl | he'
          · exact le_of_lt (lt_of_lt_of_le hlt hcw)
          · exact hmax e (hdec ▸ he') hel
        · intro e he hel
          rcases List.mem_cons.mp he with rfl | he'
          · exact lt_of_lt_of_le hlt hcw
          · exact hstrict e he' hel
      · have hloop : trick_winner_loop lead best ((pid, c) :: rest) =
            trick_winner_loop lead best rest := by
          simp [trick_winner_loop, hcs, hlt]
        obtain ⟨pre, w, post, hdec, hres, hw, hmax, hstrict⟩ := ih best hb
        have hcb : rankValue c.rank ≤ rankValue best.2.rank := Nat.le_of_not_lt hlt
        have hbw : rankValue best.2.rank ≤ rankValue w.2.rank :=
          hmax best (List.mem_cons_self _ _) hb
        cases pre with
        | nil =>
          simp only [List.nil_append] at hdec
          obtain ⟨hbw', hpost⟩ := List.cons_eq_cons.mp hdec
          subst hpost
          refine ⟨[], w, (pid, c) :: rest, by rw [List.nil_append, hbw'], ?_, hw, ?_, ?_⟩
          · rw [hloop, hres]
          · intro e he hel
            rcases List.mem_cons.mp he with he0 | he'
            · rw [he0]; exact hbw
            · rcases List.mem_cons.mp he' with he1 | he''
              · rw [he1]; exact le_trans hcb hbw
              · exact hmax e (List.mem_cons_of_mem _ he'') hel
          · intro e he _
            exact absurd he (List.not_mem_nil _)
        | cons p0 pre' =>
          rw [List.cons_append] at hdec
          obtain ⟨hb0, hrest⟩ := List.cons_eq_cons.mp hdec
          subst hrest
          have hb_strict : rankValue best.2.rank < rankValue w.2.rank := by
            rw [hb0]
            exact hstrict p0 (List.mem_cons_self _ _) (hb0 ▸ hb)
          refine ⟨best :: (pid, c) :: pre', w, post, rfl, ?_, hw, ?_, ?_⟩
          · rw [hloop, hres]
          · intro e he hel
            rcases List.mem_cons.mp he with he0 | he'
            · rw [he0]; exact hbw
            · rcases List.mem_cons.mp he' with he1 | he''
              · rw [he1]; exact le_trans hcb hbw
              · exact hmax e (List.mem_cons_of_mem _ he'') hel
          · intro e he hel
            rcases List.mem_cons.mp he with he0 | he'
            · rw [he0]; exact hb_strict
            · rcases List.mem_cons.mp he' with he1 | he''
              · rw [he1]; exact lt_of_le_of_lt hcb hb_strict
              · exact hstrict e (List.mem_cons_of_mem _ he'') hel
    · have hloop : trick_winner_loop lead best ((pid, c) :: rest) =
          trick_winner_loop lead best rest := by
        simp [trick_winner_loop, hcs]
      obtain ⟨pre, w, post, hdec, hres, hw, hmax, hstrict⟩ := ih best hb
      cases pre with
      | nil =>
        simp only [List.nil_append] at hdec
        obtain ⟨hbw', hpost⟩ := List.cons_eq_cons.mp hdec
        subst hpost
        refine ⟨[], w, (pid, c) :: rest, by rw [List.nil_append, hbw'], ?_, hw, ?_, ?_⟩
        · rw [hloop, hres]
        · intro e he hel
          rcases List.mem_cons.mp he with he0 | he'
          · exact hmax e (he0 ▸ List.mem_cons_self _ _) hel
          · rcases List.mem_cons.mp he' with he1 | he''
            · exact absurd (by rw [he1] at hel; exact hel) hcs
            · exact hmax e (List.mem_cons_of_mem _ he'') hel
        · intro e he _
          exact absurd he (List.not_mem_nil _)
      | cons p0 pre' =>
        rw [List.cons_append] at hdec
        obtain ⟨hb0, hrest⟩ := List.cons_eq_cons.mp hdec
        subst hrest
        refine ⟨best :: (pid, c) :: pre', w, post, rfl, ?_, hw, ?_, ?_⟩
        · rw [hloop, hres]
        · intro e he hel
          rcases List.mem_cons.mp he with he0 | he'
          · exact hmax e (he0 ▸ List.mem_cons_self _ _) hel
          · rcases List.mem_cons.mp he' with he1 | he''
            · exact absurd (by rw [he1] at hel; exact hel) hcs
            · exact hmax e (List.mem_cons_of_mem _ he'') hel
        · intro e he hel
          rcases List.mem_cons.mp he with he0 | he'
          · have hel' : p0.2.suit = lead := by rw [← hb0, ← he0]; exact hel
            have := hstrict p0 (List.mem_cons_self _ _) hel'
            rw [he0, hb0]
            exact this
          · rcases List.mem_cons.mp he' with he1 | he''
            · exact absurd (by rw [he1] at hel; exact hel) hcs
            · exact hstrict e (List.mem_cons_of_mem _ he'') hel

/-- C7 claim: for every non-empty trick, trick_winner returns the seat of a
lead-suit entry of maximal rank among lead-suit entries (so a card of
another suit never wins), and every strictly earlier lead-suit play has
strictly smaller rank, making the winner the first highest-ranked lead-suit
play in trick order. -/
theorem c7_trick_winner_spec (t0 : String × Card) (rest : List (String × Card)) :
    ∃ pre w post, t0 :: rest = pre ++ w :: post
      ∧ trick_winner (t0 :: rest) = some w.1
      ∧ w.2.suit = t0.2.suit
      ∧ (∀ e ∈ t0 :: rest, e.2.suit = t0.2.suit → rankValue e.2.rank ≤ rankValue w.2.rank)
      ∧ (∀ e ∈ pre, e.2.suit = t0.2.suit → rankValue e.2.rank < rankValue w.2.rank) := by
  obtain ⟨pre, w, post, hdec, hres, hw, hmax, hstrict⟩ :=
    trick_winner_loop_spec t0.2.suit rest t0 rfl
  exact ⟨pre, w, post, hdec, by simp [trick_winner, hres], hw, hmax, hstrict⟩

/-! ### Dictionary lemmas -/

/-- A key is absent exactly when lookup gives none. -/
lemma dlookup_eq_none_iff {α : Type} (d : List (String × α)) (k : String) :
    dlookup d k = none ↔ k ∉ dkeys d := by
  induction d with
  | nil => simp [dlookup, dkeys]
  | cons kv rest ih =>
    obtain ⟨k0, v0⟩ := kv
    by_cases h : k0 = k
    · subst h
      simp [dlookup, dkeys]
    · simp [dlookup, dkeys, h, ih, Ne.symm h]

/-- Lookup after an in-place modification at the same key. -/
lemma dlookup_dmodify_self {α : Type} (d : List (String × α)) (k : String) (f : α → α) :
    dlookup (dmodify d k f) k = (dlookup d k).map f := by
  induction d with
  | nil => rfl
  | cons kv rest ih =>
    obtain ⟨k0, v0⟩ := kv
    by_cases h : k0 = k
    · simp [dmodify, dlookup, h]
    · simp [dmodify, dlookup, h, ih]

/-- Lookup at a different key is unaffected by dmodify. -/
lemma dlookup_dmodify_ne {α : Type} (d : List (String × α)) (k k' : String) (f : α → α)
    (h : k' ≠ k) : dlookup (dmodify d k f) k' = dlookup d k' := by
  induction d with
  | nil => rfl
  | cons kv rest ih =>
    obtain ⟨k0, v0⟩ := kv
    by_cases h0 : k0 = k
    · subst h0
      simp [dmodify, dlookup, Ne.symm h]
    · by_cases h1 : k0 = k'
      · simp [dmodify, dlookup, h0, h1, h]
      · simp [dmodify, dlookup, h0, h1, ih]

/-- dmodify keeps the key list unchanged. -/
lemma dkeys_dmodify {α : Type} (d : List (String × α)) (k : String) (f : α → α) :
    dkeys (dmodify d k f) = dkeys d := by
  induction d with
  | nil => rfl
  | cons kv rest ih =>
    obtain ⟨k0, v0⟩ := kv
    by_cases h : k0 = k
    · simp [dmodify, dkeys, h]
    · simp [dmodify, dkeys, h]
      simpa [dkeys] using ih

/-- Lookup after assignment at the same key. -/
lemma dlookup_dset_self {α : Type} (d : List (String × α)) (k : String) (v : α) :
    dlookup (dset d k v) k = some v := by
  induction d with
  | nil => simp [dset, dlookup]
  | cons kv rest ih =>
    obtain ⟨k0, v0⟩ := kv
    by_cases h : k0 = k
    · simp [dset, dlookup, h]
    · simp [dset, dlookup, h, ih]

/-- Lookup at a different key is unaffected by assignment. -/
lemma dlookup_dset_ne {α : Type} (d : List (String × α)) (k k' : String) (v : α)
    (h : k' ≠ k) : dlookup (dset d k v) k' = dlookup d k' := by
  induction d with
  | nil => simp [dset, dlookup, Ne.symm h]
  | cons kv rest ih =>
    obtain ⟨k0, v0⟩ := kv
    by_cases h0 : k0 = k
    · subst h0
      simp [dset, dlookup, Ne.symm h]
    · by_cases h1 : k0 = k'
      · simp [dset, dlookup, h0, h1, h]
      · simp [dset, dlookup, h0, h1, ih]

/-! ### Lemmas about the Python max and min helpers -/

/-- The left fold of max dominates its start and every element, and is the
start or one of the elements. -/
lemma foldl_max_spec (xs : List Int) : ∀ a : Int,
    a ≤ xs.foldl max a ∧ (∀ x ∈ xs, x ≤ xs.foldl max a) ∧
      (xs.foldl max a = a ∨ xs.foldl max a ∈ xs) := by
  induction xs with
  | nil =>
    intro a
    exact ⟨le_refl _, by intro x hx; exact absurd hx (List.not_mem_nil _), Or.inl rfl⟩
  | cons x xs ih =>
    intro a
    obtain ⟨h1, h2, h3⟩ := ih (max a x)
    refine ⟨le_trans (le_max_left _ _) h1, ?_, ?_⟩
    · intro y hy
      rcases List.mem_cons.mp hy with hy0 | hy'
      · rw [hy0]
        exact le_trans (le_max_right _ _) h1
      · exact h2 y hy'
    · rcases h3 with he | hm
      · rcases max_cases a x with ⟨hm1, _⟩ | ⟨hm1, _⟩
        · exact Or.inl (by rw [List.foldl_cons, he, hm1])
        · exact Or.inr (by rw [List.foldl_cons, he, hm1]; exact List.mem_cons_self _ _)
      · exact Or.inr (List.mem_cons_of_mem _ hm)

/-- Every value of the list is at most its Python max. -/
lemma pyMaxD_ge (l : List Int) (dflt : Int) : ∀ v ∈ l, v ≤ pyMaxD l dflt := by
  cases l with
  | nil => intro v hv; exact absurd hv (List.not_mem_nil _)
  | cons x xs =>
    intro v hv
    rcases List.mem_cons.mp hv with hv0 | hv'
    · rw [hv0]; exact (foldl_max_spec xs x).1
    · exact (foldl_max_spec xs x).2.1 v hv'

/-- The Python max of a non-empty list is one of its values. -/
lemma pyMaxD_mem (l : List Int) (dflt : Int) (hne : l ≠ []) : pyMaxD l dflt ∈ l := by
  cases l with
  | nil => exact absurd rfl hne
  | cons x xs =>
    rcases (foldl_max_spec xs x).2.2 with he | hm
    · rw [pyMaxD, he]; exact List.mem_cons_self _ _
    · exact List.mem_cons_of_mem _ hm

/-- Specification of the min-with-key scanning loop: the result is the key
of an entry of the scanned sequence whose value is minimal, and every entry
strictly before it has strictly larger value, because the loop replaces the
best entry only on a strict decrease. -/
lemma pyMinKeyLoop_spec (rest : List (String × Int)) :
    ∀ (bk : String) (bv : Int),
      ∃ pre kv post, (bk, bv) :: rest = pre ++ kv :: post
        ∧ pyMinKeyLoop bk bv rest = kv.1
        ∧ (∀ e ∈ (bk, bv) :: rest, kv.2 ≤ e.2)
        ∧ (∀ e ∈ pre, kv.2 < e.2) := by
  induction rest with
  | nil =>
    intro bk bv
    refine ⟨[], (bk, bv), [], rfl, rfl, ?_, ?_⟩
    · intro e he
      have : e = (bk, bv) := by simpa using he
      rw [this]
    · intro e he
      exact absurd he (List.not_mem_nil _)
  | cons e0 rest ih =>
    intro bk bv
    obtain ⟨k, v⟩ := e0
    by_cases hlt : v < bv
    · obtain ⟨pre, kv, post, hdec, hres, hmin, hstrict⟩ := ih k v
      have hkv : kv.2 ≤ v := hmin (k, v) (List.mem_cons_self _ _)
      refine ⟨(bk, bv) :: pre, kv, post, ?_, ?_, ?_, ?_⟩
      · rw [List.cons_append, ← hdec]
      · simp only [pyMinKeyLoop, if_pos hlt]
        exact hres
      · intro e he
        rcases List.mem_cons.mp he with he0 | he'
        · rw [he0]
          exact le_of_lt (lt_of_le_of_lt hkv hlt)
        · exact hmin e he'
      · intro e he
        rcases List.mem_cons.mp he with he0 | he'
        · rw [he0]
          exact lt_of_le_of_lt hkv hlt
        · exact hstrict e he'
    · obtain ⟨pre, kv, post, hdec, hres, hmin, hstrict⟩ := ih bk bv
      have hbv : kv.2 ≤ bv := hmin (bk, bv) (List.mem_cons_self _ _)
      have hv : kv.2 ≤ v := le_trans hbv (le_of_not_lt hlt)
      cases pre with
      | nil =>
        simp only [List.nil_append] at hdec
        obtain ⟨h1, h2⟩ := List.cons_eq_cons.mp hdec
        subst h2
        refine ⟨[], kv, (k, v) :: rest, by rw [List.nil_append, ← h1], ?_, ?_, ?_⟩
        · simp only [pyMinKeyLoop, if_neg hlt]
          exact hres
        · intro e he
          rcases List.mem_cons.mp he with he0 | he'
          · rw [he0, ← h1]
          · rcases List.mem_cons.mp he' with he1 | he''
            · rw [he1]
              exact hv
            · exact hmin e (List.mem_cons_of_mem _ he'')
        · intro e he
          exact absurd he (List.not_mem_nil _)
      | cons p0 pre' =>
        rw [List.cons_append] at hdec
        obtain ⟨h1, h2⟩ := List.cons_eq_cons.mp hdec
        subst h2
        have hstrict_b : kv.2 < bv := by
          have := hstrict p0 (List.mem_cons_self _ _)
          rw [← h1] at this
          exact this
        refine ⟨(bk, bv) :: (k, v) :: pre', kv, post, rfl, ?_, ?_, ?_⟩
        · simp only [pyMinKeyLoop, if_neg hlt]
          exact hres
        · intro e he
          rcases List.mem_cons.mp he with he0 | he'
          · rw [he0]
            exact hbv
          · rcases List.mem_cons.mp he' with he1 | he''
            · rw [he1]
              exact hv
            · exact hmin e (List.mem_cons_of_mem _ he'')
        · intro e he
          rcases List.mem_cons.mp he with he0 | he'
          · rw [he0]
            exact hstrict_b
          · rcases List.mem_cons.mp he' with he1 | he''
            · rw [he1]
              exact lt_of_lt_of_le hstrict_b (le_of_not_lt hlt)
            · exact hstrict e (List.mem_cons_of_mem _ he'')

/-- Specification of Python min with the value as key on a non-empty
dictionary: the first key of minimal value. -/
lemma pyMinKey_spec (d : List (String × Int)) (hne : d ≠ []) :
    ∃ pre kv post, d = pre ++ kv :: post
      ∧ pyMinKey d = some kv.1
      ∧ (∀ e ∈ d, kv.2 ≤ e.2)
      ∧ (∀ e ∈ pre, kv.2 < e.2) := by
  cases d with
  | nil => exact absurd rfl hne
  | cons e0 rest =>
    obtain ⟨k, v⟩ := e0
    obtain ⟨pre, kv, post, hdec, hres, hmin, hstrict⟩ := pyMinKeyLoop_spec rest k v
    exact ⟨pre, kv, post, hdec, by rw [pyMinKey, hres], hmin, hstrict⟩

/-! ### Lemmas about finish_round -/

/-- No entry captured 26 points, so no moon shooter is found. -/
lemma find_moon_shooter_eq_none (d : List (String × Int)) (h : ∀ e ∈ d, e.2 ≠ 26) :
    find_moon_shooter d = none := by
  induction d with
  | nil => rfl
  | cons e0 rest ih =>
    obtain ⟨k, v⟩ := e0
    have hv : v ≠ 26 := h (k, v) (List.mem_cons_self _ _)
    simp only [find_moon_shooter, if_neg hv]
    exact ih (fun e he => h e (List.mem_cons_of_mem _ he))

/-- The seat holding exactly 26 points is found by the moon-shooter scan
when every other seat's entry is not 26. -/
lemma find_moon_shooter_eq_some (d : List (String × Int)) (p : String)
    (hp : (p, (26 : Int)) ∈ d) (hother : ∀ e ∈ d, e.1 ≠ p → e.2 ≠ 26) :
    find_moon_shooter d = some p := by
  induction d with
  | nil => exact absurd hp (List.not_mem_nil _)
  | cons e0 rest ih =>
    obtain ⟨k, v⟩ := e0
    by_cases hv : v = (26 : Int)
    · have hk : k = p := by
        by_contra hk
        exact hother (k, v) (List.mem_cons_self _ _) hk hv
      simp only [find_moon_shooter, if_pos hv, hk]
    · have hp' : (p, (26 : Int)) ∈ rest := by
        rcases List.mem_cons.mp hp with h0 | h1
        · exact absurd (congrArg Prod.snd h0).symm hv
        · exact h1
      simp only [find_moon_shooter, if_neg hv]
      exact ih hp' (fun e he => hother e (List.mem_cons_of_mem _ he))

/-- Lookup through the non-moon scoring loop at a seat with no captured
points entry: the score is unchanged. -/
lemma applyTaken_lookup_none (taken : List (String × Int)) :
    ∀ (scores : List (String × Int)) (q : String),
      dlookup taken q = none →
      dlookup (applyTaken scores taken) q = dlookup scores q := by
  induction taken with
  | nil => intro scores q _; rfl
  | cons e0 rest ih =>
    obtain ⟨pid, pts0⟩ := e0
    intro scores q hq
    have hpid : pid ≠ q := by
      intro h
      subst h
      simp [dlookup] at hq
    have hq' : dlookup rest q = none := by
      simpa [dlookup, hpid] using hq
    rw [applyTaken, ih _ _ hq', dlookup_dmodify_ne _ _ _ _ (fun h => hpid h.symm)]

/-- Lookup through the non-moon scoring loop: the score of a seat whose
captured points are recorded grows by exactly those points. -/
lemma applyTaken_lookup_mem (taken : List (String × Int)) :
    ∀ (scores : List (String × Int)) (q : String) (pts : Int),
      (dkeys taken).Nodup → dlookup taken q = some pts →
      dlookup (applyTaken scores taken) q = (dlookup scores q).map (· + pts) := by
  induction taken with
  | nil => intro scores q pts _ hq; exact absurd hq (by simp [dlookup])
  | cons e0 rest ih =>
    obtain ⟨pid, pts0⟩ := e0
    intro scores q pts hnd hq
    have hnd' : (dkeys rest).Nodup := (List.nodup_cons.mp hnd).2
    have hnotin : pid ∉ dkeys rest := (List.nodup_cons.mp hnd).1
    by_cases hpid : pid = q
    · subst hpid
      have hpts : pts0 = pts := by
        simpa [dlookup] using hq
      subst hpts
      have hnone : dlookup rest pid = none := (dlookup_eq_none_iff _ _).mpr hnotin
      rw [applyTaken, applyTaken_lookup_none rest _ _ hnone, dlookup_dmodify_self]
    · have hq' : dlookup rest q = some pts := by
        simpa [dlookup, hpid] using hq
      rw [applyTaken, ih _ _ _ hnd' hq', dlookup_dmodify_ne _ _ _ _ (fun h => hpid h.symm)]

/-- applyTaken keeps the key list of scores unchanged. -/
lemma dkeys_applyTaken (taken : List (String × Int)) :
    ∀ scores : List (String × Int), dkeys (applyTaken scores taken) = dkeys scores := by
  induction taken with
  | nil => intro scores; rfl
  | cons e0 rest ih =>
    obtain ⟨pid, pts0⟩ := e0
    intro scores
    rw [applyTaken, ih, dkeys_dmodify]

/-- Lookup through the moon scoring map: every seat other than the shooter
gains 26, the shooter is unchanged. -/
lemma dlookup_moon_map (d : List (String × Int)) (p q : String) :
    dlookup (d.map (fun kv => if kv.1 = p then kv else (kv.1, kv.2 + 26))) q =
      (dlookup d q).map (fun v => if q = p then v else v + 26) := by
  induction d with
  | nil => rfl
  | cons kv rest ih =>
    obtain ⟨k, v⟩ := kv
    simp only [List.map_cons]
    have hhead : (if ((k, v) : String × Int).1 = p then (k, v) else ((k, v).1, (k, v).2 + 26))
        = if k = p then (k, v) else (k, v + 26) := by
      by_cases hk : k = p
      · simp [hk]
      · simp [hk]
    rw [hhead]
    by_cases hk : k = p
    · rw [if_pos hk]
      subst hk
      by_cases hq : k = q
      · subst hq
        simp [dlookup]
      · simp [dlookup, hq, ih]
    · rw [if_neg hk]
      by_cases hq : k = q
      · subst hq
        simp [dlookup, hk]
      · simp [dlookup, hq, ih]

/-- The moon scoring map keeps the key list unchanged. -/
lemma dkeys_moon_map (d : List (String × Int)) (p : String) :
    dkeys (d.map (fun kv => if kv.1 = p then kv else (kv.1, kv.2 + 26))) = dkeys d := by
  induction d with
  | nil => rfl
  | cons kv rest ih =>
    obtain ⟨k, v⟩ := kv
    by_cases hk : k = p
    · simp only [List.map_cons, if_pos hk, dkeys, List.map_cons] at *
      rw [ih]
    · simp only [List.map_cons, if_neg hk, dkeys, List.map_cons] at *
      rw [ih]

/-- The termination check of finish_round does not change scores. -/
lemma scores_if_game_over (c : Prop) [Decidable c] (S : GameState) (w : Option String) :
    (if c then { S with phase := "game_over", winner_id := w } else S).scores = S.scores := by
  by_cases h : c
  · rw [if_pos h]
  · rw [if_neg h]

/-- finish_round is the termination check applied to an intermediate state
that has phase round_end, the untouched winner_id, and the round's scoring
folded into scores. -/
lemma finish_round_split (s : GameState) :
    ∃ S : GameState, S.phase = "round_end" ∧ S.winner_id = s.winner_id ∧
      dkeys S.scores = dkeys s.scores ∧
      S.hearts_broken = s.hearts_broken ∧ S.current_turn = s.current_turn ∧
      S.trick = s.trick ∧ S.players = s.players ∧
      finish_round s =
        (if 100 ≤ pyMaxD (dvalues S.scores) 0 then
          { S with phase := "game_over", winner_id := pyMinKey S.scores }
        else S) := by
  cases hmoon : find_moon_shooter s.taken_points_round with
  | none =>
    refine ⟨{ s with
      phase := "round_end"
      scores := applyTaken s.scores s.taken_points_round
      round_index := s.round_index + 1 }, rfl, rfl, dkeys_applyTaken _ _, rfl, rfl, rfl, rfl, ?_⟩
    have hemp : pyTruthyStr none = false := rfl
    simp [finish_round, hmoon, hemp]
  | some shooter =>
    by_cases hsh : shooter = ""
    · refine ⟨{ s with
        phase := "round_end"
        scores := applyTaken s.scores s.taken_points_round
        round_index := s.round_index + 1 }, rfl, rfl, dkeys_applyTaken _ _, rfl, rfl, rfl, rfl, ?_⟩
      subst hsh
      have hemp : pyTruthyStr (some "") = false := rfl
      simp [finish_round, hmoon, hemp]
    · refine ⟨{ s with
        phase := "round_end"
        scores := s.scores.map (fun kv => if kv.1 = shooter then kv else (kv.1, kv.2 + 26))
        round_index := s.round_index + 1 }, rfl, rfl, dkeys_moon_map _ _, rfl, rfl, rfl, rfl, ?_⟩
      have hemp : pyTruthyStr (some shooter) = true := by
        have : shooter.isEmpty = false := by
          rw [Bool.eq_false_iff]
          intro h
          exact hsh ((String.isEmpty_iff _).mp h)
        simp [pyTruthyStr, this]
      simp [finish_round, hmoon, hemp]

/-- C4 claim: when one seat captured all 26 points of the round its
cumulative score is unchanged and every other seat gains exactly 26;
otherwise every seat gains exactly its captured points. -/
theorem c4_shoot_the_moon_scoring (s : GameState)
    (hnd : (dkeys s.taken_points_round).Nodup) :
    (∀ p, p ≠ "" → (p, (26 : Int)) ∈ s.taken_points_round →
      (∀ e ∈ s.taken_points_round, e.1 ≠ p → e.2 = 0) →
      dlookup (finish_round s).scores p = dlookup s.scores p ∧
      (∀ q, q ≠ p → dlookup (finish_round s).scores q = (dlookup s.scores q).map (· + 26)))
    ∧ ((∀ e ∈ s.taken_points_round, e.2 ≠ 26) →
      ∀ q pts, dlookup s.taken_points_round q = some pts →
        dlookup (finish_round s).scores q = (dlookup s.scores q).map (· + pts)) := by
  constructor
  · intro p hp hmem hzero
    have hmoon : find_moon_shooter s.taken_points_round = some p :=
      find_moon_shooter_eq_some _ _ hmem (fun e he hne => by rw [hzero e he hne]; decide)
    have hemp : pyTruthyStr (some p) = true := by
      have hie : p.isEmpty = false := by
        rw [Bool.eq_false_iff]
        intro h
        exact hp ((String.isEmpty_iff _).mp h)
      simp [pyTruthyStr, hie]
    have hsc : (finish_round s).scores =
        s.scores.map (fun kv => if kv.1 = p then kv else (kv.1, kv.2 + 26)) := by
      simp only [finish_round, hmoon, hemp, eq_self_iff_true, if_true]
      rw [apply_ite GameState.scores]
      dsimp only
      rw [ite_self]
    constructor
    · rw [hsc, dlookup_moon_map]
      simp
    · intro q hq
      rw [hsc, dlookup_moon_map]
      simp [hq]
  · intro hno q pts hq
    have hmoon : find_moon_shooter s.taken_points_round = none :=
      find_moon_shooter_eq_none _ hno
    have hemp : pyTruthyStr none = false := rfl
    have hsc : (finish_round s).scores = applyTaken s.scores s.taken_points_round := by
      simp only [finish_round, hmoon, hemp, Bool.false_eq_true, if_false]
      rw [apply_ite GameState.scores]
      dsimp only
      rw [ite_self]
    rw [hsc]
    exact applyTaken_lookup_mem _ _ _ _ hnd hq

/-- Concrete round state in which seat A captured all 26 points. -/
def c4w : GameState :=
  { initGame ps4 with taken_points_round := [("A", 26), ("B", 0), ("C", 0), ("D", 0)] }

/-- Closed instance of the C4 theorem at a concrete moon round, discharging
its hypotheses. -/
theorem c4_shoot_the_moon_scoring_witness :
    dlookup (finish_round c4w).scores "A" = dlookup c4w.scores "A" :=
  ((c4_shoot_the_moon_scoring c4w (by decide)).1 "A" (by decide) (by decide) (by decide)).1

/-- C8 claim: completing a round ends the game exactly when some cumulative
score reaches 100 after scoring; then the phase is game_over and winner_id
is a seat of minimal cumulative score, otherwise the phase is round_end and
winner_id is untouched. -/
theorem c8_game_termination (s : GameState) :
    ((∃ v ∈ dvalues (finish_round s).scores, (100 : Int) ≤ v) →
      (finish_round s).phase = "game_over" ∧
      ∃ p v, (finish_round s).winner_id = some p ∧ (p, v) ∈ (finish_round s).scores ∧
        ∀ e ∈ (finish_round s).scores, v ≤ e.2)
    ∧ ((∀ v ∈ dvalues (finish_round s).scores, v < (100 : Int)) →
      (finish_round s).phase = "round_end" ∧ (finish_round s).winner_id = s.winner_id) := by
  obtain ⟨S, hph, hwin, hkeys, hhb, hct, htr, hpl, heq⟩ := finish_round_split s
  have hsc : (finish_round s).scores = S.scores := by
    rw [heq, scores_if_game_over]
  constructor
  · rintro ⟨v, hv, h100⟩
    rw [hsc] at hv
    have hcond : 100 ≤ pyMaxD (dvalues S.scores) 0 :=
      le_trans h100 (pyMaxD_ge _ _ v hv)
    have hSne : S.scores ≠ [] := by
      intro h
      rw [h] at hv
      exact absurd hv (List.not_mem_nil _)
    obtain ⟨pre, kv, post, hdec, hres, hmin, hstrict⟩ := pyMinKey_spec S.scores hSne
    rw [heq, if_pos hcond]
    refine ⟨rfl, kv.1, kv.2, ?_, ?_, ?_⟩
    · exact hres
    · show (kv.1, kv.2) ∈ S.scores
      rw [hdec]
      exact List.mem_append_right _ (List.mem_cons_self _ _)
    · intro e he
      exact hmin e he
  · intro hlow
    have hcond : ¬ 100 ≤ pyMaxD (dvalues S.scores) 0 := by
      by_cases hne : dvalues S.scores = []
      · rw [hne]
        decide
      · intro hge
        have hmem := pyMaxD_mem (dvalues S.scores) 0 hne
        have hlt := hlow _ (by rw [hsc]; exact hmem)
        exact absurd hge (not_le.mpr hlt)
    rw [heq, if_neg hcond]
    exact ⟨hph, hwin⟩

/-- Concrete finished-round state in which seat A has reached 101 points. -/
def c8w : GameState :=
  { initGame ps4 with
    scores := [("A", 101), ("B", 5), ("C", 5), ("D", 5)]
    taken_points_round := [("A", 0), ("B", 0), ("C", 0), ("D", 0)] }

/-- Closed instance of the C8 theorem at a concrete game-ending round,
discharging its hypothesis. -/
theorem c8_game_termination_witness :
    (finish_round c8w).phase = "game_over" ∧
    ∃ p v, (finish_round c8w).winner_id = some p ∧ (p, v) ∈ (finish_round c8w).scores ∧
      ∀ e ∈ (finish_round c8w).scores, v ≤ e.2 :=
  (c8_game_termination c8w).1 ⟨101, by decide, by decide⟩

/-- C10 claim: when the game ends, winner_id is the seat of the first entry
of minimal score in the scores dictionary, whose key order is the order of
the players list, so among tied minima the earliest seat in seat order
wins deterministically. -/
theorem c10_winner_tie_break (s : GameState)
    (horder : dkeys s.scores = s.players.map PlayerState.id)
    (hhigh : ∃ v ∈ dvalues (finish_round s).scores, (100 : Int) ≤ v) :
    ∃ pre kv post, (finish_round s).scores = pre ++ kv :: post
      ∧ (finish_round s).winner_id = some kv.1
      ∧ (∀ e ∈ (finish_round s).scores, kv.2 ≤ e.2)
      ∧ (∀ e ∈ pre, kv.2 < e.2)
      ∧ dkeys (finish_round s).scores = s.players.map PlayerState.id := by
  obtain ⟨S, hph, hwin, hkeys, hhb, hct, htr, hpl, heq⟩ := finish_round_split s
  have hsc : (finish_round s).scores = S.scores := by
    rw [heq, scores_if_game_over]
  obtain ⟨v, hv, h100⟩ := hhigh
  rw [hsc] at hv
  have hcond : 100 ≤ pyMaxD (dvalues S.scores) 0 :=
    le_trans h100 (pyMaxD_ge _ _ v hv)
  have hSne : S.scores ≠ [] := by
    intro h
    rw [h] at hv
    exact absurd hv (List.not_mem_nil _)
  obtain ⟨pre, kv, post, hdec, hres, hmin, hstrict⟩ := pyMinKey_spec S.scores hSne
  refine ⟨pre, kv, post, ?_, ?_, ?_, ?_, ?_⟩
  · rw [hsc]
    exact hdec
  · rw [heq, if_pos hcond]
    exact hres
  · intro e he
    rw [hsc] at he
    exact hmin e he
  · exact hstrict
  · rw [hsc, hkeys, horder]

/-- Concrete game-ending state with seats B and C tied at the minimum. -/
def c10w : GameState :=
  { initGame ps4 with
    scores := [("A", 100), ("B", 26), ("C", 26), ("D", 50)]
    taken_points_round := [("A", 0), ("B", 0), ("C", 0), ("D", 0)] }

/-- Closed instance of the C10 theorem at a concrete tied game end,
discharging its hypotheses. -/
theorem c10_winner_tie_break_witness :
    ∃ pre kv post, (finish_round c10w).scores = pre ++ kv :: post
      ∧ (finish_round c10w).winner_id = some kv.1
      ∧ (∀ e ∈ (finish_round c10w).scores, kv.2 ≤ e.2)
      ∧ (∀ e ∈ pre, kv.2 < e.2)
      ∧ dkeys (finish_round c10w).scores = c10w.players.map PlayerState.id :=
  c10_winner_tie_break c10w (by decide) ⟨100, by decide, by decide⟩

/-! ### C9: hearts-broken monotonicity -/

/-- Fields of play_state1 other than last_trick are unchanged. -/
lemma play_state1_fields (s : GameState) :
    (play_state1 s).hearts_broken = s.hearts_broken ∧
    (play_state1 s).trick = s.trick ∧
    (play_state1 s).players = s.players ∧
    (play_state1 s).current_turn = s.current_turn ∧
    (play_state1 s).phase = s.phase ∧
    (play_state1 s).hands = s.hands ∧
    (play_state1 s).trick_index = s.trick_index ∧
    (play_state1 s).taken_points_round = s.taken_points_round ∧
    (play_state1 s).pending_pass = s.pending_pass := by
  unfold play_state1
  split
  · exact ⟨rfl, rfl, rfl, rfl, rfl, rfl, rfl, rfl, rfl⟩
  · exact ⟨rfl, rfl, rfl, rfl, rfl, rfl, rfl, rfl, rfl⟩

/-- Fields of play_state3 other than hearts_broken are unchanged. -/
lemma play_state3_fields (s : GameState) (card : Card) :
    (play_state3 s card).trick = s.trick ∧
    (play_state3 s card).players = s.players ∧
    (play_state3 s card).current_turn = s.current_turn ∧
    (play_state3 s card).phase = s.phase ∧
    (play_state3 s card).hands = s.hands ∧
    (play_state3 s card).trick_index = s.trick_index ∧
    (play_state3 s card).taken_points_round = s.taken_points_round ∧
    (play_state3 s card).pending_pass = s.pending_pass := by
  unfold play_state3
  split
  · exact ⟨rfl, rfl, rfl, rfl, rfl, rfl, rfl, rfl⟩
  · exact ⟨rfl, rfl, rfl, rfl, rfl, rfl, rfl, rfl⟩

/-- The hearts-broken flag after play_state3. -/
lemma play_state3_hearts_broken (s : GameState) (card : Card) :
    (play_state3 s card).hearts_broken =
      (if card.suit = 'H' then true else s.hearts_broken) := by
  unfold play_state3
  split
  · rfl
  · rfl

/-- start_round resets the hearts-broken flag. -/
lemma start_round_hearts_broken (s : GameState) (deck : List Card) :
    (start_round s deck).hearts_broken = false := by
  simp only [start_round]
  rw [apply_ite GameState.hearts_broken]
  dsimp only
  rw [ite_self]

/-- finish_round never touches the hearts-broken flag. -/
lemma finish_round_hearts_broken (s : GameState) :
    (finish_round s).hearts_broken = s.hearts_broken := by
  obtain ⟨S, hph, hwin, hkeys, hhb, hct, htr, hpl, heq⟩ := finish_round_split s
  rw [heq]
  by_cases h : 100 ≤ pyMaxD (dvalues S.scores) 0
  · rw [if_pos h]
    exact hhb
  · rw [if_neg h]
    exact hhb

/-- play_card_complete never touches the hearts-broken flag. -/
lemma play_card_complete_hearts_broken (s : GameState) (r : GameState × Bool)
    (h : play_card_complete s = some r) : r.1.hearts_broken = s.hearts_broken := by
  simp only [play_card_complete] at h
  split at h
  · exact Option.noConfusion h
  · split at h
    · obtain rfl := Option.some.inj h
      rw [finish_round_hearts_broken]
    · obtain rfl := Option.some.inj h
      rfl

/-- The hearts-broken flag after a successful play_card_exec: set exactly
when the played card is a heart. -/
lemma play_card_exec_hearts_broken (s : GameState) (pid : String) (c : Card)
    (hand : List Card) (r : GameState × Bool) (h : play_card_exec s pid c hand = some r) :
    r.1.hearts_broken = (if c.suit = 'H' then true else s.hearts_broken) := by
  have hs2 : (play_state2 (play_state1 s) pid c hand).hearts_broken = s.hearts_broken :=
    (play_state1_fields s).1
  simp only [play_card_exec] at h
  split at h
  · split at h
    · exact Option.noConfusion h
    · obtain rfl := Option.some.inj h
      show (play_state3 (play_state2 (play_state1 s) pid c hand) c).hearts_broken = _
      rw [play_state3_hearts_broken, hs2]
  · have := play_card_complete_hearts_broken _ _ h
    rw [this, play_state3_hearts_broken, hs2]

/-- C9 claim: within a round hearts_broken only moves from false to true:
an accepted heart play sets it, no submit_pass or play_card ever clears it,
and only start_round (also through start_next_round) resets it to false. -/
theorem c9_hearts_broken_monotone :
    (∀ (s : GameState) (deck : List Card), (start_round s deck).hearts_broken = false)
    ∧ (∀ (s : GameState) (pid : String) (cards : List Card) (r : GameState × Bool),
        submit_pass s pid cards = some r → r.1.hearts_broken = s.hearts_broken)
    ∧ (∀ (s : GameState) (pid : String) (c : Card) (r : GameState × Bool),
        play_card s pid c = some r → s.hearts_broken = true → r.1.hearts_broken = true)
    ∧ (∀ (s : GameState) (pid : String) (c : Card) (r : GameState × Bool),
        play_card s pid c = some r → r.2 = true → c.suit = 'H' → r.1.hearts_broken = true)
    ∧ (∀ (s : GameState) (deck : List Card),
        (start_next_round s deck).1.hearts_broken = s.hearts_broken ∨
        (start_next_round s deck).1.hearts_broken = false) := by
  refine ⟨start_round_hearts_broken, ?_, ?_, ?_, ?_⟩
  · intro s pid cards r h
    simp only [submit_pass] at h
    repeat' split at h
    all_goals first
      | exact Option.noConfusion h
      | (obtain rfl := Option.some.inj h; rfl)
  · intro s pid c r h hsb
    simp only [play_card] at h
    repeat' split at h
    all_goals first
      | (obtain rfl := Option.some.inj h; exact hsb)
      | (rw [play_card_exec_hearts_broken _ _ _ _ _ h]
         split
         · rfl
         · exact hsb)
  · intro s pid c r h hr2 hsuit
    simp only [play_card] at h
    repeat' split at h
    all_goals first
      | (obtain rfl := Option.some.inj h; exact Bool.noConfusion hr2)
      | (rw [play_card_exec_hearts_broken _ _ _ _ _ h, if_pos hsuit])
  · intro s deck
    by_cases h : s.phase ≠ "round_end"
    · left
      simp only [start_next_round, if_pos h]
    · right
      simp only [start_next_round, if_neg h]
      exact start_round_hearts_broken s deck

/-! ### C1: validation of submit_pass and play_card -/

/-- A pass list repeating the two of clubs three times. -/
def dupCards : List Card := [two_clubs, two_clubs, two_clubs]

/-- Apply submit_pass and keep the state, used to chain submissions. -/
def stepPassF (s : GameState) (pid : String) (cards : List Card) : GameState :=
  match submit_pass s pid cards with
  | some r => r.1
  | none => s

/-- The concrete passing-phase state: round 0 of a fresh four-seat game. -/
def sPass : GameState := start_round (initGame ps4) make_deck

/-- After seat A submits the duplicated list. -/
def sC1a : GameState := stepPassF sPass "A" dupCards

/-- After seat B also submits (its first three cards). -/
def sC1b : GameState := stepPassF sC1a "B" ((dget sC1a.hands "B" []).take 3)

/-- After seat C also submits. -/
def sC1c : GameState := stepPassF sC1b "C" ((dget sC1b.hands "C" []).take 3)

/-- C1 evaluation at the failing input: in the passing phase seat A holds
the two of clubs once, yet submit_pass accepts the duplicated pass list
[2C, 2C, 2C]: it returns True and stores the list, mutating the state,
where the claim requires False and an unchanged state.  When the fourth
seat then submits, the exchange removes the same card twice and the call
raises (modelled as none), an exception escaping the state machine. -/
theorem c1_duplicate_pass_code_bug :
    sPass.phase = "passing"
    ∧ (∀ c ∈ dupCards, c ∈ dget sPass.hands "A" [])
    ∧ ¬ dupCards.Nodup
    ∧ submit_pass sPass "A" dupCards =
        some ({ sPass with pending_pass := [("A", dupCards)] }, true)
    ∧ ({ sPass with pending_pass := [("A", dupCards)] } : GameState) ≠ sPass
    ∧ submit_pass sC1c "D" ((dget sC1c.hands "D" []).take 3) = none := by
  refine ⟨by decide, by decide, by decide, by decide, by decide, by decide⟩

/-! ### C2: where the two of clubs lives

The turn invariant needs that whenever the phase is passing some hand still
holds the two of clubs, so that the exchange can hand the turn to its
holder.  The lemmas below track membership in the multiset union of all
hands through dealing and through the pass exchange. -/

/-- All cards held by any seat. -/
def handsUnion (hands : List (String × List Card)) : List Card :=
  (hands.map Prod.snd).flatten

/-- The union of a dictionary with a first entry. -/
lemma handsUnion_cons (k0 : String) (v0 : List Card) (rest : List (String × List Card)) :
    handsUnion ((k0, v0) :: rest) = v0 ++ handsUnion rest := rfl

/-- Membership in the union of hands. -/
lemma mem_handsUnion {c : Card} {hands : List (String × List Card)} :
    c ∈ handsUnion hands ↔ ∃ e ∈ hands, c ∈ e.2 := by
  induction hands with
  | nil =>
    simp [handsUnion]
  | cons kv rest ih =>
    obtain ⟨k0, v0⟩ := kv
    rw [handsUnion_cons]
    constructor
    · intro h
      rcases List.mem_append.mp h with hin | hin
      · exact ⟨(k0, v0), List.mem_cons_self _ _, hin⟩
      · obtain ⟨e, he, hce⟩ := ih.mp hin
        exact ⟨e, List.mem_cons_of_mem _ he, hce⟩
    · rintro ⟨e, he, hce⟩
      rcases List.mem_cons.mp he with he0 | he'
      · refine List.mem_append_left _ ?_
        rw [he0] at hce
        exact hce
      · exact List.mem_append_right _ (ih.mpr ⟨e, he', hce⟩)

/-- A successful lookup means the key is present. -/
lemma mem_dkeys_of_dlookup {α : Type} {d : List (String × α)} {k : String} {v : α}
    (h : dlookup d k = some v) : k ∈ dkeys d := by
  by_contra hk
  rw [(dlookup_eq_none_iff _ _).mpr hk] at h
  exact Option.noConfusion h

/-- After overwriting a key, a card of the union was either kept or sat in
the overwritten hand. -/
lemma handsUnion_dset_of_lookup {hands : List (String × List Card)} {k : String}
    {h : List Card} (h' : List Card) {c : Card} (hl : dlookup hands k = some h)
    (hmem : c ∈ handsUnion hands) : c ∈ handsUnion (dset hands k h') ∨ c ∈ h := by
  induction hands with
  | nil => exact Option.noConfusion hl
  | cons kv rest ih =>
    obtain ⟨k0, v0⟩ := kv
    rw [handsUnion_cons] at hmem
    by_cases hk : k0 = k
    · subst hk
      simp only [dlookup, eq_self_iff_true, if_true] at hl
      obtain rfl := Option.some.inj hl
      rcases List.mem_append.mp hmem with hin | hin
      · exact Or.inr hin
      · refine Or.inl ?_
        simp only [dset, eq_self_iff_true, if_true]
        rw [handsUnion_cons]
        exact List.mem_append_right _ hin
    · simp only [dlookup, if_neg hk] at hl
      rcases List.mem_append.mp hmem with hin | hin
      · refine Or.inl ?_
        simp only [dset, if_neg hk]
        rw [handsUnion_cons]
        exact List.mem_append_left _ hin
      · rcases ih hl hin with hres | hres
        · refine Or.inl ?_
          simp only [dset, if_neg hk]
          rw [handsUnion_cons]
          exact List.mem_append_right _ hres
        · exact Or.inr hres

/-- A card of the newly written hand is in the union after dset, provided
the key exists. -/
lemma handsUnion_dset_mem_new {hands : List (String × List Card)} {k : String}
    (h' : List Card) {c : Card} (hk : k ∈ dkeys hands) (hc : c ∈ h') :
    c ∈ handsUnion (dset hands k h') := by
  induction hands with
  | nil => exact absurd hk (List.not_mem_nil _)
  | cons kv rest ih =>
    obtain ⟨k0, v0⟩ := kv
    by_cases hkk : k0 = k
    · subst hkk
      simp only [dset, eq_self_iff_true, if_true]
      rw [handsUnion_cons]
      exact List.mem_append_left _ hc
    · have hk' : k ∈ dkeys rest := by
        rcases List.mem_cons.mp hk with h0 | h0
        · exact absurd h0.symm hkk
        · exact h0
      simp only [dset, if_neg hkk]
      rw [handsUnion_cons]
      exact List.mem_append_right _ (ih hk')

/-- Removing a list of cards from a hand keeps every other card: a card of
the original hand is in the result or among the removed cards. -/
lemma remove_list_mem (cs : List Card) : ∀ (h h' : List Card) (c : Card),
    remove_list h cs = some h' → c ∈ h → c ∈ h' ∨ c ∈ cs := by
  induction cs with
  | nil =>
    intro h h' c hr hc
    obtain rfl := Option.some.inj hr
    exact Or.inl hc
  | cons c0 rest ih =>
    intro h h' c hr hc
    simp only [remove_list, remove_one] at hr
    by_cases hc0 : c0 ∈ h
    · rw [if_pos hc0] at hr
      have hr' : remove_list (h.erase c0) rest = some h' := hr
      by_cases hcc : c = c0
      · exact Or.inr (by rw [hcc]; exact List.mem_cons_self _ _)
      · have hce : c ∈ h.erase c0 := (List.mem_erase_of_ne hcc).mpr hc
        rcases ih _ _ _ hr' hce with h1 | h1
        · exact Or.inl h1
        · exact Or.inr (List.mem_cons_of_mem _ h1)
    · rw [if_neg hc0] at hr
      exact Option.noConfusion hr

/-- Through the removal loop of the exchange, a card of the union is kept
or was one of the pending pass cards. -/
lemma removeAllPending_mem (pending : List (String × List Card)) :
    ∀ (hands hands1 : List (String × List Card)) (c : Card),
      removeAllPending hands pending = some hands1 →
      c ∈ handsUnion hands →
      c ∈ handsUnion hands1 ∨ ∃ e ∈ pending, c ∈ e.2 := by
  induction pending with
  | nil =>
    intro hands hands1 c h hc
    obtain rfl := Option.some.inj h
    exact Or.inl hc
  | cons e0 rest ih =>
    obtain ⟨pid, cs⟩ := e0
    intro hands hands1 c h hc
    simp only [removeAllPending] at h
    cases hl : dlookup hands pid with
    | none =>
      rw [hl] at h
      exact Option.noConfusion h
    | some hsel =>
      simp only [hl] at h
      cases hr : remove_list hsel cs with
      | none =>
        rw [hr] at h
        exact Option.noConfusion h
      | some hsel' =>
        simp only [hr] at h
        rcases handsUnion_dset_of_lookup hsel' hl hc with hin | hin
        · rcases ih _ _ _ h hin with h1 | ⟨e, he, hce⟩
          · exact Or.inl h1
          · exact Or.inr ⟨e, List.mem_cons_of_mem _ he, hce⟩
        · rcases remove_list_mem cs _ _ _ hr hin with h1 | h1
          · have hnew : c ∈ handsUnion (dset hands pid hsel') :=
              handsUnion_dset_mem_new hsel' (mem_dkeys_of_dlookup hl) h1
            rcases ih _ _ _ h hnew with h2 | ⟨e, he, hce⟩
            · exact Or.inl h2
            · exact Or.inr ⟨e, List.mem_cons_of_mem _ he, hce⟩
          · exact Or.inr ⟨(pid, cs), List.mem_cons_self _ _, h1⟩

/-- Through the extension loop of the exchange, kept cards and rerouted
pending cards all end up in the union. -/
lemma extendAllPending_mem (mapping : List (String × String))
    (pending : List (String × List Card)) :
    ∀ (hands hands2 : List (String × List Card)) (c : Card),
      extendAllPending mapping hands pending = some hands2 →
      (c ∈ handsUnion hands ∨ ∃ e ∈ pending, c ∈ e.2) →
      c ∈ handsUnion hands2 := by
  induction pending with
  | nil =>
    intro hands hands2 c h hc
    obtain rfl := Option.some.inj h
    rcases hc with hin | ⟨e, he, _⟩
    · exact hin
    · exact absurd he (List.not_mem_nil _)
  | cons e0 rest ih =>
    obtain ⟨pid, cs⟩ := e0
    intro hands hands2 c h hc
    simp only [extendAllPending] at h
    cases hm : dlookup mapping pid with
    | none =>
      rw [hm] at h
      exact Option.noConfusion h
    | some target =>
      simp only [hm] at h
      cases hl : dlookup hands target with
      | none =>
        rw [hl] at h
        exact Option.noConfusion h
      | some ht =>
        simp only [hl] at h
        apply ih _ _ _ h
        rcases hc with hin | ⟨e, he, hce⟩
        · rcases handsUnion_dset_of_lookup (ht ++ cs) hl hin with h1 | h1
          · exact Or.inl h1
          · exact Or.inl (handsUnion_dset_mem_new _ (mem_dkeys_of_dlookup hl)
              (List.mem_append_left _ h1))
        · rcases List.mem_cons.mp he with he0 | he'
          · refine Or.inl (handsUnion_dset_mem_new _ (mem_dkeys_of_dlookup hl) ?_)
            refine List.mem_append_right _ ?_
            rw [he0] at hce
            exact hce
          · exact Or.inr ⟨e, he', hce⟩

/-- Each hand being sorted does not change the union's members. -/
lemma handsUnion_sortAll (hands : List (String × List Card)) (c : Card) :
    c ∈ handsUnion (hands.map (fun kv => (kv.1, sortHand kv.2))) ↔ c ∈ handsUnion hands := by
  have hperm : ∀ l : List Card, c ∈ sortHand l ↔ c ∈ l := by
    intro l
    exact (List.perm_insertionSort _ l).mem_iff
  constructor
  · intro h
    obtain ⟨e, he, hce⟩ := mem_handsUnion.mp h
    obtain ⟨e0, he0, rfl⟩ := List.mem_map.mp he
    exact mem_handsUnion.mpr ⟨e0, he0, (hperm e0.2).mp hce⟩
  · intro h
    obtain ⟨e, he, hce⟩ := mem_handsUnion.mp h
    exact mem_handsUnion.mpr ⟨(e.1, sortHand e.2), List.mem_map.mpr ⟨e, he, rfl⟩,
      (hperm e.2).mpr hce⟩

/-- Assignment puts its key among the keys. -/
lemma mem_dkeys_dset_self {α : Type} (d : List (String × α)) (k : String) (v : α) :
    k ∈ dkeys (dset d k v) := by
  induction d with
  | nil => exact List.mem_cons_self _ _
  | cons kv rest ih =>
    obtain ⟨k0, v0⟩ := kv
    by_cases hk : k0 = k
    · subst hk
      simp only [dset, eq_self_iff_true, if_true]
      exact List.mem_cons_self _ _
    · simp only [dset, if_neg hk]
      exact List.mem_cons_of_mem _ ih

/-- Assignment keeps every existing key. -/
lemma mem_dkeys_dset_of_mem {α : Type} (d : List (String × α)) (k k' : String) (v : α)
    (h : k' ∈ dkeys d) : k' ∈ dkeys (dset d k v) := by
  induction d with
  | nil => exact absurd h (List.not_mem_nil _)
  | cons kv rest ih =>
    obtain ⟨k0, v0⟩ := kv
    by_cases hk : k0 = k
    · subst hk
      simp only [dset, eq_self_iff_true, if_true]
      exact h
    · simp only [dset, if_neg hk]
      rcases List.mem_cons.mp h with h0 | h0
      · exact List.mem_cons.mpr (Or.inl h0)
      · exact List.mem_cons_of_mem _ (ih h0)

/-- Keys accumulated by the dictionary-building fold of dinit. -/
lemma dkeys_foldl_dset {α : Type} (v : α) (ks : List String) :
    ∀ (d : List (String × α)) (k : String), (k ∈ ks ∨ k ∈ dkeys d) →
      k ∈ dkeys (ks.foldl (fun d k => dset d k v) d) := by
  induction ks with
  | nil =>
    intro d k h
    rcases h with h | h
    · exact absurd h (List.not_mem_nil _)
    · exact h
  | cons k0 ks ih =>
    intro d k h
    rw [List.foldl_cons]
    apply ih (dset d k0 v)
    rcases h with h | h
    · rcases List.mem_cons.mp h with h0 | h0
      · exact Or.inr (h0 ▸ mem_dkeys_dset_self d k0 v)
      · exact Or.inl h0
    · exact Or.inr (mem_dkeys_dset_of_mem d k0 k v h)

/-- Appending a card to the hand of an existing key puts it in the union. -/
lemma handsUnion_dmodify_append (hands : List (String × List Card)) (k : String)
    (cs : List Card) (c : Card) (hk : k ∈ dkeys hands) (hc : c ∈ cs) :
    c ∈ handsUnion (dmodify hands k (· ++ cs)) := by
  induction hands with
  | nil => exact absurd hk (List.not_mem_nil _)
  | cons kv rest ih =>
    obtain ⟨k0, v0⟩ := kv
    by_cases hkk : k0 = k
    · simp only [dmodify, if_pos hkk]
      rw [handsUnion_cons]
      exact List.mem_append_left _ (List.mem_append_right _ hc)
    · have hk' : k ∈ dkeys rest := by
        rcases List.mem_cons.mp hk with h0 | h0
        · exact absurd h0.symm hkk
        · exact h0
      simp only [dmodify, if_neg hkk]
      rw [handsUnion_cons]
      exact List.mem_append_right _ (ih hk')

/-- Appending never removes members of the union. -/
lemma handsUnion_dmodify_mono (hands : List (String × List Card)) (k : String)
    (cs : List Card) (c : Card) (hc : c ∈ handsUnion hands) :
    c ∈ handsUnion (dmodify hands k (· ++ cs)) := by
  induction hands with
  | nil => exact hc
  | cons kv rest ih =>
    obtain ⟨k0, v0⟩ := kv
    rw [handsUnion_cons] at hc
    by_cases hkk : k0 = k
    · simp only [dmodify, if_pos hkk]
      rw [handsUnion_cons]
      rcases List.mem_append.mp hc with hin | hin
      · exact List.mem_append_left _ (List.mem_append_left _ hin)
      · exact List.mem_append_right _ hin
    · simp only [dmodify, if_neg hkk]
      rw [handsUnion_cons]
      rcases List.mem_append.mp hc with hin | hin
      · exact List.mem_append_left _ hin
      · exact List.mem_append_right _ (ih hin)

/-- Every card of the deck lands in some hand during the round-robin deal,
provided every player id is a key of the accumulator. -/
lemma dealLoop_mem (players : List PlayerState) (hpl : players ≠ []) (deck : List Card) :
    ∀ (i : Nat) (hands : List (String × List Card)) (c : Card),
      (∀ p ∈ players, p.id ∈ dkeys hands) →
      (c ∈ deck ∨ c ∈ handsUnion hands) →
      c ∈ handsUnion (dealLoop players i deck hands) := by
  induction deck with
  | nil =>
    intro i hands c _ hc
    rcases hc with hc | hc
    · exact absurd hc (List.not_mem_nil _)
    · exact hc
  | cons c0 rest ih =>
    intro i hands c hkeys hc
    have hpmem : players.getD (i % players.length) ⟨"", "", false⟩ ∈ players := by
      have hlt : i % players.length < players.length :=
        Nat.mod_lt _ (List.length_pos.mpr hpl)
      rw [List.getD_eq_getElem _ _ hlt]
      exact List.getElem_mem _
    have hkey : (players.getD (i % players.length) ⟨"", "", false⟩).id ∈ dkeys hands :=
      hkeys _ hpmem
    show c ∈ handsUnion (dealLoop players (i + 1) rest _)
    apply ih (i + 1)
    · intro p hp
      rw [dkeys_dmodify]
      exact hkeys p hp
    · rcases hc with hd | hu
      · rcases List.mem_cons.mp hd with h0 | hrest
        · exact Or.inr (handsUnion_dmodify_append _ _ [c0] _ hkey
            (h0 ▸ List.mem_cons_self _ _))
        · exact Or.inl hrest
      · exact Or.inr (handsUnion_dmodify_mono _ _ _ _ hu)

/-- Every card of the dealt deck is in the union of the dealt hands. -/
lemma mem_handsUnion_deal (players : List PlayerState) (deck : List Card)
    (hpl : players ≠ []) (c : Card) (hc : c ∈ deck) :
    c ∈ handsUnion (deal_hands players deck) := by
  unfold deal_hands
  refine (handsUnion_sortAll _ _).mpr ?_
  apply dealLoop_mem players hpl deck 0
  · intro p hp
    unfold dinit
    apply dkeys_foldl_dset
    exact Or.inl (List.mem_map_of_mem _ hp)
  · exact Or.inl hc

/-- The two-of-clubs scan succeeds when some hand holds the card. -/
lemma find_two_clubs_player_isSome (hands : List (String × List Card))
    (h : two_clubs ∈ handsUnion hands) : ∃ p, find_two_clubs_player hands = some p := by
  induction hands with
  | nil => exact absurd h (List.not_mem_nil _)
  | cons kv rest ih =>
    obtain ⟨k, v⟩ := kv
    by_cases hv : two_clubs ∈ v
    · exact ⟨k, by simp [find_two_clubs_player, hv]⟩
    · rw [handsUnion_cons] at h
      rcases List.mem_append.mp h with hin | hin
      · exact absurd hin hv
      · obtain ⟨p, hp⟩ := ih hin
        exact ⟨p, by simp [find_two_clubs_player, hv, hp]⟩

/-- The seat found by the two-of-clubs scan does hold the card. -/
lemma find_two_clubs_player_holder (hands : List (String × List Card)) (p : String)
    (h : find_two_clubs_player hands = some p) : ∃ e ∈ hands, e.1 = p ∧ two_clubs ∈ e.2 := by
  induction hands with
  | nil => exact Option.noConfusion h
  | cons kv rest ih =>
    obtain ⟨k, v⟩ := kv
    by_cases hv : two_clubs ∈ v
    · have hk : k = p := by
        simpa [find_two_clubs_player, hv] using h
      exact ⟨(k, v), List.mem_cons_self _ _, hk, hv⟩
    · have h' : find_two_clubs_player rest = some p := by
        simpa [find_two_clubs_player, hv] using h
      obtain ⟨e, he, hep, he2⟩ := ih h'
      exact ⟨e, List.mem_cons_of_mem _ he, hep, he2⟩

/-- The two of clubs is one of the 52 cards of the deck. -/
lemma two_clubs_mem_make_deck : two_clubs ∈ make_deck := by decide

/-! ### The turn invariant and its preservation -/

/-- Fields set uniformly by start_round in both of its branches. -/
lemma start_round_fields (s : GameState) (deck : List Card) :
    (start_round s deck).players = s.players ∧
    (start_round s deck).trick = [] ∧
    (start_round s deck).hands = deal_hands s.players deck ∧
    (start_round s deck).pending_pass = [] ∧
    (start_round s deck).pass_dir = s.round_index % 4 := by
  simp only [start_round]
  split
  · exact ⟨rfl, rfl, rfl, rfl, rfl⟩
  · exact ⟨rfl, rfl, rfl, rfl, rfl⟩

/-- The two branches of start_round: hold rounds enter playing with the
two-of-clubs holder to act, other rounds enter passing with no turn. -/
lemma start_round_phase_cases (s : GameState) (deck : List Card) :
    (s.round_index % 4 = 3 ∧ (start_round s deck).phase = "playing" ∧
      (start_round s deck).current_turn = find_two_clubs_player (deal_hands s.players deck))
    ∨ (¬ s.round_index % 4 = 3 ∧ (start_round s deck).phase = "passing" ∧
      (start_round s deck).current_turn = none) := by
  simp only [start_round]
  split
  · rename_i hc
    exact Or.inl ⟨hc, rfl, rfl⟩
  · rename_i hc
    exact Or.inr ⟨hc, rfl, rfl⟩

/-- finish_round keeps the players. -/
lemma finish_round_players (s : GameState) : (finish_round s).players = s.players := by
  obtain ⟨S, hph, hwin, hkeys, hhb, hct, htr, hpl, heq⟩ := finish_round_split s
  rw [heq]
  by_cases h : 100 ≤ pyMaxD (dvalues S.scores) 0
  · rw [if_pos h]
    exact hpl
  · rw [if_neg h]
    exact hpl

/-- finish_round keeps the trick. -/
lemma finish_round_trick (s : GameState) : (finish_round s).trick = s.trick := by
  obtain ⟨S, hph, hwin, hkeys, hhb, hct, htr, hpl, heq⟩ := finish_round_split s
  rw [heq]
  by_cases h : 100 ≤ pyMaxD (dvalues S.scores) 0
  · rw [if_pos h]
    exact htr
  · rw [if_neg h]
    exact htr

/-- finish_round keeps the current turn. -/
lemma finish_round_current_turn (s : GameState) :
    (finish_round s).current_turn = s.current_turn := by
  obtain ⟨S, hph, hwin, hkeys, hhb, hct, htr, hpl, heq⟩ := finish_round_split s
  rw [heq]
  by_cases h : 100 ≤ pyMaxD (dvalues S.scores) 0
  · rw [if_pos h]
    exact hct
  · rw [if_neg h]
    exact hct

/-- finish_round leaves the game in round_end or game_over. -/
lemma finish_round_phase_cases (s : GameState) :
    (finish_round s).phase = "round_end" ∨ (finish_round s).phase = "game_over" := by
  obtain ⟨S, hph, hwin, hkeys, hhb, hct, htr, hpl, heq⟩ := finish_round_split s
  rw [heq]
  by_cases h : 100 ≤ pyMaxD (dvalues S.scores) 0
  · rw [if_pos h]
    exact Or.inr rfl
  · rw [if_neg h]
    exact Or.inl hph

/-- The invariant carried through every reachable state of a four-seat
game: the seat count is four, the turn is unset exactly in the lobby and
passing phases, the trick is always short of a full round of plays, and
during passing some hand holds the two of clubs. -/
def Inv (s : GameState) : Prop :=
  s.players.length = 4 ∧
  (s.current_turn = none ↔ (s.phase = "lobby" ∨ s.phase = "passing")) ∧
  s.trick.length < s.players.length ∧
  (s.phase = "passing" → two_clubs ∈ handsUnion s.hands)

/-- start_round establishes the invariant from any state of a four-seat
game, given a full shuffled deck. -/
lemma inv_start_round (s : GameState) (deck : List Card) (hdeck : deck.Perm make_deck)
    (hlen : s.players.length = 4) : Inv (start_round s deck) := by
  obtain ⟨hplayers, htrick, hhands, hpend, hdir⟩ := start_round_fields s deck
  have hpl_ne : s.players ≠ [] := by
    intro hnil
    rw [hnil] at hlen
    exact absurd hlen (by decide)
  have h2c : two_clubs ∈ handsUnion (deal_hands s.players deck) :=
    mem_handsUnion_deal s.players deck hpl_ne two_clubs
      (hdeck.mem_iff.mpr two_clubs_mem_make_deck)
  rcases start_round_phase_cases s deck with ⟨hd, hph, hct⟩ | ⟨hd, hph, hct⟩
  · obtain ⟨p, hp⟩ := find_two_clubs_player_isSome _ h2c
    refine ⟨by rw [hplayers]; exact hlen, ?_, ?_, ?_⟩
    · rw [hct, hp, hph]
      constructor
      · intro hn
        exact Option.noConfusion hn
      · intro hor
        rcases hor with h | h
        · exact absurd h (by decide)
        · exact absurd h (by decide)
    · rw [htrick, hplayers, hlen]
      decide
    · rw [hph]
      intro hpass
      exact absurd hpass (by decide)
  · refine ⟨by rw [hplayers]; exact hlen, ?_, ?_, ?_⟩
    · rw [hct, hph]
      constructor
      · intro _
        exact Or.inr rfl
      · intro _
        rfl
    · rw [htrick, hplayers, hlen]
      decide
    · intro _
      rw [hhands]
      exact h2c

/-- submit_pass preserves the invariant. -/
lemma inv_submit_pass (s : GameState) (pid : String) (cards : List Card)
    (r : GameState × Bool) (h : submit_pass s pid cards = some r) (hinv : Inv s) :
    Inv r.1 := by
  by_cases h1 : s.phase ≠ "passing"
  · simp only [submit_pass, if_pos h1] at h
    obtain rfl := Option.some.inj h
    exact hinv
  · by_cases h2 : cards.length ≠ 3
    · simp only [submit_pass, if_neg h1, if_pos h2] at h
      obtain rfl := Option.some.inj h
      exact hinv
    · by_cases h3 : cards.any (fun c => decide (c ∉ dget s.hands pid [])) = true
      · simp only [submit_pass, if_neg h1, if_neg h2, if_pos h3] at h
        obtain rfl := Option.some.inj h
        exact hinv
      · by_cases h4 : (dset s.pending_pass pid cards).length < s.players.length
        · simp only [submit_pass, if_neg h1, if_neg h2, if_neg h3, if_pos h4] at h
          obtain rfl := Option.some.inj h
          exact hinv
        · have hph : s.phase = "passing" := not_ne_iff.mp h1
          simp only [submit_pass, if_neg h1, if_neg h2, if_neg h3, if_neg h4] at h
          cases hrem : removeAllPending s.hands (dset s.pending_pass pid cards) with
          | none =>
            rw [hrem] at h
            exact Option.noConfusion h
          | some hands1 =>
            simp only [hrem] at h
            cases hext : extendAllPending (pass_map s.players s.pass_dir) hands1
                (dset s.pending_pass pid cards) with
            | none =>
              rw [hext] at h
              exact Option.noConfusion h
            | some hands2 =>
              simp only [hext] at h
              obtain rfl := Option.some.inj h
              have h2c : two_clubs ∈ handsUnion s.hands := hinv.2.2.2 hph
              have h2c1 := removeAllPending_mem _ _ _ _ hrem h2c
              have h2c2 : two_clubs ∈ handsUnion hands2 :=
                extendAllPending_mem _ _ _ _ _ hext h2c1
              have h2c3 : two_clubs ∈
                  handsUnion (hands2.map (fun kv => (kv.1, sortHand kv.2))) :=
                (handsUnion_sortAll _ _).mpr h2c2
              obtain ⟨p, hp⟩ := find_two_clubs_player_isSome _ h2c3
              refine ⟨hinv.1, ?_, hinv.2.2.1, ?_⟩
              · constructor
                · intro hn
                  have hn' : find_two_clubs_player
                      (hands2.map (fun kv => (kv.1, sortHand kv.2))) = none := hn
                  rw [hp] at hn'
                  exact Option.noConfusion hn'
                · intro hor
                  rcases hor with hx | hx
                  · exact absurd (show ("playing" : String) = "lobby" from hx) (by decide)
                  · exact absurd (show ("playing" : String) = "passing" from hx) (by decide)
              · intro hx
                exact absurd (show ("playing" : String) = "passing" from hx) (by decide)

/-- play_card_complete preserves the invariant from a playing-phase state
that has a full seat count. -/
lemma inv_play_card_complete (X : GameState) (r : GameState × Bool)
    (h : play_card_complete X = some r) (hp4 : X.players.length = 4)
    (hph : X.phase = "playing") : Inv r.1 := by
  simp only [play_card_complete] at h
  cases htw : trick_winner X.trick with
  | none =>
    rw [htw] at h
    exact Option.noConfusion h
  | some winner =>
    simp only [htw] at h
    by_cases hall : X.hands.all (fun kv => kv.2.isEmpty) = true
    · rw [if_pos hall] at h
      obtain rfl := Option.some.inj h
      -- the round is over: r.1 = finish_round of the cleared-trick state
      refine ⟨?_, ?_, ?_, ?_⟩
      · rw [finish_round_players]
        exact hp4
      · rw [finish_round_current_turn]
        constructor
        · intro hn
          exact Option.noConfusion hn
        · intro hor
          rcases finish_round_phase_cases
              { X with
                taken_points_round := dmodify X.taken_points_round winner
                  (· + (X.trick.map (fun pc => card_points pc.2)).sum)
                last_trick := X.trick
                trick := []
                current_turn := some winner } with hcase | hcase
          · rcases hor with hx | hx
            · rw [hcase] at hx
              exact absurd hx (by decide)
            · rw [hcase] at hx
              exact absurd hx (by decide)
          · rcases hor with hx | hx
            · rw [hcase] at hx
              exact absurd hx (by decide)
            · rw [hcase] at hx
              exact absurd hx (by decide)
      · rw [finish_round_trick, finish_round_players]
        rw [hp4]
        exact (show (0 : Nat) < 4 by decide)
      · intro hx
        rcases finish_round_phase_cases
            { X with
              taken_points_round := dmodify X.taken_points_round winner
                (· + (X.trick.map (fun pc => card_points pc.2)).sum)
              last_trick := X.trick
              trick := []
              current_turn := some winner } with hcase | hcase
        · rw [hcase] at hx
          exact absurd hx (by decide)
        · rw [hcase] at hx
          exact absurd hx (by decide)
    · rw [if_neg hall] at h
      obtain rfl := Option.some.inj h
      refine ⟨hp4, ?_, ?_, ?_⟩
      · constructor
        · intro hn
          exact Option.noConfusion hn
        · intro hor
          rcases hor with hx | hx
          · rw [hph] at hx
            exact absurd hx (by decide)
          · rw [hph] at hx
            exact absurd hx (by decide)
      · rw [hp4]
        exact (show (0 : Nat) < 4 by decide)
      · intro hx
        rw [hph] at hx
        exact absurd hx (by decide)

/-- play_card_exec preserves the invariant from a playing-phase state. -/
lemma inv_play_card_exec (s : GameState) (pid : String) (c : Card) (hand : List Card)
    (r : GameState × Bool) (h : play_card_exec s pid c hand = some r)
    (hinv : Inv s) (hph : s.phase = "playing") : Inv r.1 := by
  have hXpl : (play_state3 (play_state2 (play_state1 s) pid c hand) c).players = s.players := by
    rw [(play_state3_fields _ _).2.1]
    exact (play_state1_fields s).2.2.1
  have hXph : (play_state3 (play_state2 (play_state1 s) pid c hand) c).phase = s.phase := by
    rw [(play_state3_fields _ _).2.2.2.1]
    exact (play_state1_fields s).2.2.2.2.1
  simp only [play_card_exec] at h
  by_cases hlt : (play_state3 (play_state2 (play_state1 s) pid c hand) c).trick.length <
      (play_state3 (play_state2 (play_state1 s) pid c hand) c).players.length
  · rw [if_pos hlt] at h
    cases hnp : next_player (play_state3 (play_state2 (play_state1 s) pid c hand) c) pid with
    | none =>
      rw [hnp] at h
      exact Option.noConfusion h
    | some np =>
      simp only [hnp] at h
      obtain rfl := Option.some.inj h
      refine ⟨?_, ?_, ?_, ?_⟩
      · show (play_state3 (play_state2 (play_state1 s) pid c hand) c).players.length = 4
        rw [hXpl]
        exact hinv.1
      · constructor
        · intro hn
          exact Option.noConfusion hn
        · intro hor
          have hor' : (play_state3 (play_state2 (play_state1 s) pid c hand) c).phase =
              "lobby" ∨ (play_state3 (play_state2 (play_state1 s) pid c hand) c).phase =
              "passing" := hor
          rw [hXph, hph] at hor'
          rcases hor' with hx | hx
          · exact absurd hx (by decide)
          · exact absurd hx (by decide)
      · exact hlt
      · intro hx
        have hx' : (play_state3 (play_state2 (play_state1 s) pid c hand) c).phase =
            "passing" := hx
        rw [hXph, hph] at hx'
        exact absurd hx' (by decide)
  · rw [if_neg hlt] at h
    apply inv_play_card_complete _ _ h
    · rw [hXpl]
      exact hinv.1
    · rw [hXph]
      exact hph

/-- play_card preserves the invariant. -/
lemma inv_play_card (s : GameState) (pid : String) (c : Card) (r : GameState × Bool)
    (h : play_card s pid c = some r) (hinv : Inv s) : Inv r.1 := by
  by_cases h1 : s.phase ≠ "playing"
  · simp only [play_card, if_pos h1] at h
    obtain rfl := Option.some.inj h
    exact hinv
  · by_cases h2 : s.current_turn ≠ some pid
    · simp only [play_card, if_neg h1, if_pos h2] at h
      obtain rfl := Option.some.inj h
      exact hinv
    · by_cases h3 : c ∉ dget s.hands pid []
      · simp only [play_card, if_neg h1, if_neg h2, if_pos h3] at h
        obtain rfl := Option.some.inj h
        exact hinv
      · by_cases h4 : c ∉ legal_moves (dget s.hands pid []) s.trick s.hearts_broken
            (decide (s.trick_index = 0))
        · simp only [play_card, if_neg h1, if_neg h2, if_neg h3, if_pos h4] at h
          obtain rfl := Option.some.inj h
          exact hinv
        · simp only [play_card, if_neg h1, if_neg h2, if_neg h3, if_neg h4] at h
          exact inv_play_card_exec s pid c _ r h hinv (not_ne_iff.mp h1)

/-- start_next_round preserves the invariant. -/
lemma inv_start_next_round (s : GameState) (deck : List Card) (r : GameState × Bool)
    (hdeck : deck.Perm make_deck) (h : start_next_round s deck = r) (hinv : Inv s) :
    Inv r.1 := by
  by_cases h1 : s.phase ≠ "round_end"
  · simp only [start_next_round, if_pos h1] at h
    rw [← h]
    exact hinv
  · simp only [start_next_round, if_neg h1] at h
    rw [← h]
    exact inv_start_round s deck hdeck hinv.1

/-- Every reachable state of a four-seat game satisfies the invariant. -/
lemma inv_reachable (ps : List PlayerState) (s : GameState) (hlen : ps.length = 4)
    (hreach : Reachable ps s) : Inv s := by
  induction hreach with
  | refl =>
    refine ⟨hlen, ?_, ?_, ?_⟩
    · constructor
      · intro _
        exact Or.inl rfl
      · intro _
        rfl
    · show (0 : Nat) < ps.length
      rw [hlen]
      decide
    · intro hx
      exact absurd (show ("lobby" : String) = "passing" from hx) (by decide)
  | tail hsteps hstep ih =>
    cases hstep
    case stepStart deck hdeck => exact inv_start_round _ deck hdeck ih.1
    case stepPass pid cards b h => exact inv_submit_pass _ pid cards (_, b) h ih
    case stepPlay pid card b h => exact inv_play_card _ pid card (_, b) h ih
    case stepNext deck b hdeck h => exact inv_start_next_round _ deck (_, b) hdeck h ih

/-- Amended C2 claim: in every reachable state of a four-seat game the
trick always holds fewer than four cards, and current_turn is None exactly
in the lobby and passing phases — so it is set during playing, but remains
set (to the last trick's winner) during round_end and game_over as well. -/
theorem c2_turn_phase_invariant (ps : List PlayerState) (s : GameState)
    (hlen : ps.length = 4) (hreach : Reachable ps s) :
    (s.current_turn = none ↔ (s.phase = "lobby" ∨ s.phase = "passing"))
    ∧ s.trick.length < 4 := by
  obtain ⟨hp4, hiff, htrick, _⟩ := inv_reachable ps s hlen hreach
  exact ⟨hiff, hp4 ▸ htrick⟩

/-- Closed instance of the amended C2 theorem at the initial state of a
concrete four-seat game, discharging its hypotheses. -/
theorem c2_turn_phase_invariant_witness :
    ((initGame ps4).current_turn = none ↔
      ((initGame ps4).phase = "lobby" ∨ (initGame ps4).phase = "passing"))
    ∧ (initGame ps4).trick.length < 4 :=
  c2_turn_phase_invariant ps4 (initGame ps4) (by decide) Relation.ReflTransGen.refl

/-! ### C2 counterexample: a reachable round_end state with a set turn -/

/-- Each successful step of the scripted driver is a Step of the game. -/
lemma step_of_oneAuto (s s' : GameState) (h : oneAuto s = some s') : Step s s' := by
  unfold oneAuto at h
  by_cases h1 : s.phase = "passing"
  · rw [if_pos h1] at h
    cases hf : s.players.find? (fun p => (dlookup s.pending_pass p.id).isNone) with
    | none =>
      rw [hf] at h
      exact Option.noConfusion h
    | some p =>
      simp only [hf] at h
      cases hsub : submit_pass s p.id ((dget s.hands p.id []).take 3) with
      | none =>
        rw [hsub] at h
        exact Option.noConfusion h
      | some r =>
        rw [hsub] at h
        obtain rfl := Option.some.inj h
        exact Step.stepPass s p.id _ r.1 r.2 (by rw [hsub])
  · rw [if_neg h1] at h
    by_cases h2 : s.phase = "playing"
    · rw [if_pos h2] at h
      cases hct : s.current_turn with
      | none =>
        rw [hct] at h
        exact Option.noConfusion h
      | some pid =>
        simp only [hct] at h
        cases hlm : get_legal_moves s pid with
        | nil =>
          rw [hlm] at h
          exact Option.noConfusion h
        | cons c0 rest =>
          simp only [hlm] at h
          cases hpc : play_card s pid c0 with
          | none =>
            rw [hpc] at h
            exact Option.noConfusion h
          | some r =>
            rw [hpc] at h
            obtain rfl := Option.some.inj h
            exact Step.stepPlay s pid c0 r.1 r.2 (by rw [hpc])
    · rw [if_neg h2] at h
      exact Option.noConfusion h

/-- Iterating the scripted driver only visits reachable states. -/
lemma reflTrans_autoRun (n : Nat) : ∀ s : GameState,
    Relation.ReflTransGen Step s (autoRun n s) := by
  induction n with
  | zero =>
    intro s
    exact Relation.ReflTransGen.refl
  | succ n ih =>
    intro s
    cases ha : oneAuto s with
    | none =>
      simp only [autoRun, ha]
      exact Relation.ReflTransGen.refl
    | some s' =>
      simp only [autoRun, ha]
      exact Relation.ReflTransGen.head (step_of_oneAuto s s' ha) (ih s')

/-- The state reached by starting round 0 of a concrete four-seat game
with the unshuffled deck and scripting the whole round: all four passes
then all 52 plays, ending the round. -/
def gBad : GameState := autoRun 60 (start_round (initGame ps4) make_deck)

/-- C2 counterexample: gBad is reachable through start_round, submit_pass
and play_card, its phase is round_end, yet current_turn is still set (to
the winner of the last trick), contradicting the claim that current_turn
is None whenever the phase is round_end. -/
theorem c2_round_end_turn_counterexample :
    Reachable ps4 gBad ∧ gBad.phase = "round_end" ∧ gBad.current_turn ≠ none := by
  refine ⟨?_, by decide, by decide⟩
  exact Relation.ReflTransGen.head
    (Step.stepStart (initGame ps4) make_deck (List.Perm.refl _))
    (reflTrans_autoRun 60 _)

/-! ### C3: the pass exchange -/

/-- A present key has a value. -/
lemma dlookup_isSome_of_mem_dkeys {α : Type} (d : List (String × α)) (k : String)
    (h : k ∈ dkeys d) : ∃ v, dlookup d k = some v := by
  cases hl : dlookup d k with
  | none => exact absurd h ((dlookup_eq_none_iff _ _).mp hl)
  | some v => exact ⟨v, rfl⟩

/-- Assignment to a present key keeps the key list. -/
lemma dkeys_dset_of_mem {α : Type} (d : List (String × α)) (k : String) (v : α)
    (h : k ∈ dkeys d) : dkeys (dset d k v) = dkeys d := by
  induction d with
  | nil => exact absurd h (List.not_mem_nil _)
  | cons kv rest ih =>
    obtain ⟨k0, v0⟩ := kv
    by_cases hk : k0 = k
    · subst hk
      simp only [dset, eq_self_iff_true, if_true]
      rfl
    · simp only [dset, if_neg hk]
      have h' : k ∈ dkeys rest := by
        rcases List.mem_cons.mp h with h0 | h0
        · exact absurd h0.symm hk
        · exact h0
      show k0 :: dkeys (dset rest k v) = k0 :: dkeys rest
      rw [ih h']

/-- Keys after assignment are among the old keys plus the written key. -/
lemma dkeys_dset_subset {α : Type} (d : List (String × α)) (k : String) (v : α) :
    dkeys (dset d k v) ⊆ k :: dkeys d := by
  induction d with
  | nil =>
    intro x hx
    exact hx
  | cons kv rest ih =>
    obtain ⟨k0, v0⟩ := kv
    by_cases hk : k0 = k
    · subst hk
      simp only [dset, eq_self_iff_true, if_true]
      intro x hx
      rcases List.mem_cons.mp hx with h0 | h0
      · exact List.mem_cons.mpr (Or.inl h0)
      · exact List.mem_cons_of_mem _ (List.mem_cons_of_mem _ h0)
    · simp only [dset, if_neg hk]
      intro x hx
      rcases List.mem_cons.mp hx with h0 | h0
      · exact List.mem_cons_of_mem _ (List.mem_cons.mpr (Or.inl h0))
      · rcases List.mem_cons.mp (ih h0) with h1 | h1
        · exact List.mem_cons.mpr (Or.inl h1)
        · exact List.mem_cons_of_mem _ (List.mem_cons_of_mem _ h1)

/-- Assignment keeps the keys duplicate-free. -/
lemma dkeys_dset_nodup {α : Type} (d : List (String × α)) (k : String) (v : α)
    (h : (dkeys d).Nodup) : (dkeys (dset d k v)).Nodup := by
  induction d with
  | nil =>
    show (([(k, v)] : List (String × α)).map Prod.fst).Nodup
    simp
  | cons kv rest ih =>
    obtain ⟨k0, v0⟩ := kv
    have h1 : k0 ∉ dkeys rest := (List.nodup_cons.mp h).1
    have h2 : (dkeys rest).Nodup := (List.nodup_cons.mp h).2
    by_cases hk : k0 = k
    · subst hk
      simp only [dset, eq_self_iff_true, if_true]
      exact h
    · simp only [dset, if_neg hk]
      refine List.nodup_cons.mpr ⟨?_, ih h2⟩
      intro hmem
      rcases List.mem_cons.mp (dkeys_dset_subset rest k v hmem) with h0 | h0
      · exact hk h0
      · exact h1 h0

/-- An entry after assignment is an old entry or the written pair. -/
lemma mem_dset {α : Type} (d : List (String × α)) (k : String) (v : α) (e : String × α)
    (h : e ∈ dset d k v) : e ∈ d ∨ e = (k, v) := by
  induction d with
  | nil =>
    have h' : e ∈ [(k, v)] := h
    exact Or.inr (by simpa using h')
  | cons kv rest ih =>
    obtain ⟨k0, v0⟩ := kv
    by_cases hk : k0 = k
    · subst hk
      simp only [dset, eq_self_iff_true, if_true] at h
      rcases List.mem_cons.mp h with h0 | h0
      · exact Or.inr h0
      · exact Or.inl (List.mem_cons_of_mem _ h0)
    · simp only [dset, if_neg hk] at h
      rcases List.mem_cons.mp h with h0 | h0
      · exact Or.inl (List.mem_cons.mpr (Or.inl h0))
      · rcases ih h0 with h1 | h1
        · exact Or.inl (List.mem_cons_of_mem _ h1)
        · exact Or.inr h1

/-- Lookup commutes with mapping a function over the values. -/
lemma dlookup_map_entry {α β : Type} (g : α → β) (d : List (String × α)) (q : String) :
    dlookup (d.map (fun kv => (kv.1, g kv.2))) q = (dlookup d q).map g := by
  induction d with
  | nil => rfl
  | cons kv rest ih =>
    obtain ⟨k, v⟩ := kv
    by_cases hk : k = q
    · subst hk
      simp [dlookup]
    · simp [dlookup, hk, ih]

/-- Removing a duplicate-free list of held cards succeeds and subtracts
their multiplicities. -/
lemma remove_list_count (cs : List Card) : ∀ h : List Card, cs.Nodup → (∀ c ∈ cs, c ∈ h) →
    ∃ h', remove_list h cs = some h' ∧
      ∀ x, List.count x h' = List.count x h - List.count x cs := by
  induction cs with
  | nil =>
    intro h _ _
    exact ⟨h, rfl, fun x => by simp⟩
  | cons c0 rest ih =>
    intro h hnd hsub
    have hc0 : c0 ∈ h := hsub c0 (List.mem_cons_self _ _)
    have hnd' : rest.Nodup := (List.nodup_cons.mp hnd).2
    have hc0r : c0 ∉ rest := (List.nodup_cons.mp hnd).1
    have hsub' : ∀ c ∈ rest, c ∈ h.erase c0 := by
      intro c hc
      have hne : c ≠ c0 := fun he => hc0r (he ▸ hc)
      exact (List.mem_erase_of_ne hne).mpr (hsub c (List.mem_cons_of_mem _ hc))
    obtain ⟨h', hrem, hcount⟩ := ih (h.erase c0) hnd' hsub'
    refine ⟨h', ?_, ?_⟩
    · simp only [remove_list, remove_one, if_pos hc0]
      exact hrem
    · intro x
      rw [hcount x, List.count_erase, Nat.sub_sub, List.count_cons]
      by_cases hx : x = c0
      · subst hx
        simp [Nat.add_comm]
      · have hx' : ¬ c0 = x := fun hh => hx hh.symm
        simp [hx, hx']

/-- A successful lookup names an actual entry. -/
lemma mem_of_dlookup {α : Type} (d : List (String × α)) (k : String) (v : α)
    (h : dlookup d k = some v) : (k, v) ∈ d := by
  induction d with
  | nil => exact Option.noConfusion h
  | cons kv rest ih =>
    obtain ⟨k0, v0⟩ := kv
    by_cases hk : k0 = k
    · subst hk
      simp only [dlookup, eq_self_iff_true, if_true] at h
      obtain rfl := Option.some.inj h
      exact List.mem_cons_self _ _
    · simp only [dlookup, if_neg hk] at h
      exact List.mem_cons_of_mem _ (ih h)

/-- The first removal loop of the exchange succeeds on well-formed pending
entries and subtracts each seat's chosen cards from its hand by
multiplicity, keeping the key list. -/
lemma removeAllPending_count (pending : List (String × List Card)) :
    ∀ hands : List (String × List Card), (dkeys pending).Nodup →
      (∀ e ∈ pending, e.2.Nodup ∧ (∀ c ∈ e.2, c ∈ dget hands e.1 []) ∧ e.1 ∈ dkeys hands) →
      ∃ hands1, removeAllPending hands pending = some hands1 ∧
        (∀ q x, List.count x (dget hands1 q []) =
          List.count x (dget hands q []) - List.count x (dget pending q [])) ∧
        dkeys hands1 = dkeys hands := by
  induction pending with
  | nil =>
    intro hands _ _
    refine ⟨hands, rfl, ?_, rfl⟩
    intro q x
    simp [dget, dlookup]
  | cons e0 rest ih =>
    obtain ⟨pid, cs⟩ := e0
    intro hands hnd hwf
    obtain ⟨hcnd, hcsub, hpkm⟩ := hwf (pid, cs) (List.mem_cons_self _ _)
    obtain ⟨h0, hl0⟩ := dlookup_isSome_of_mem_dkeys hands pid hpkm
    have hget0 : dget hands pid [] = h0 := by simp [dget, hl0]
    obtain ⟨h0', hrem0, hcount0⟩ :=
      remove_list_count cs h0 hcnd (fun c hc => hget0 ▸ hcsub c hc)
    have hndk : pid ∉ dkeys rest := (List.nodup_cons.mp hnd).1
    have hndr : (dkeys rest).Nodup := (List.nodup_cons.mp hnd).2
    have hwf' : ∀ e ∈ rest, e.2.Nodup ∧ (∀ c ∈ e.2, c ∈ dget (dset hands pid h0') e.1 []) ∧
        e.1 ∈ dkeys (dset hands pid h0') := by
      intro e he
      obtain ⟨hn, hs, hk⟩ := hwf e (List.mem_cons_of_mem _ he)
      have hne : e.1 ≠ pid := fun hh => hndk (hh ▸ List.mem_map_of_mem Prod.fst he)
      refine ⟨hn, ?_, ?_⟩
      · intro c hc
        have heq : dget (dset hands pid h0') e.1 [] = dget hands e.1 [] := by
          simp [dget, dlookup_dset_ne hands pid e.1 h0' hne]
        rw [heq]
        exact hs c hc
      · rw [dkeys_dset_of_mem hands pid h0' hpkm]
        exact hk
    obtain ⟨hands1, hrest, hcnt, hkeys⟩ := ih (dset hands pid h0') hndr hwf'
    refine ⟨hands1, ?_, ?_, ?_⟩
    · simp only [removeAllPending, hl0, hrem0]
      exact hrest
    · intro q x
      by_cases hq : q = pid
      · subst hq
        have hrq : dlookup rest q = none := (dlookup_eq_none_iff rest q).mpr hndk
        have e1 : dget ((q, cs) :: rest) q [] = cs := by simp [dget, dlookup]
        have e2 : dget (dset hands q h0') q [] = h0' := by
          simp [dget, dlookup_dset_self]
        have e3 : dget rest q [] = ([] : List Card) := by simp [dget, hrq]
        rw [hcnt q x, e2, e3, hcount0 x, e1, hget0]
        simp
      · have e1 : dget ((pid, cs) :: rest) q [] = dget rest q [] := by
          have hne : ¬ pid = q := fun hh => hq hh.symm
          simp [dget, dlookup, hne]
        have e2 : dget (dset hands pid h0') q [] = dget hands q [] := by
          simp [dget, dlookup_dset_ne hands pid q h0' hq]
        rw [hcnt q x, e2, e1]
    · rw [hkeys, dkeys_dset_of_mem hands pid h0' hpkm]

/-- Cards routed to a given receiver by the pending table under a mapping. -/
def incomingCards (mapping : List (String × String)) (pending : List (String × List Card))
    (q : String) : List Card :=
  ((pending.filter (fun e => dlookup mapping e.1 == some q)).map Prod.snd).flatten

/-- One step of the incoming-card computation. -/
lemma incomingCards_cons (mapping : List (String × String)) (pid : String) (cs : List Card)
    (rest : List (String × List Card)) (q : String) :
    incomingCards mapping ((pid, cs) :: rest) q =
      (if dlookup mapping pid = some q then cs else []) ++ incomingCards mapping rest q := by
  by_cases hm : dlookup mapping pid = some q
  · simp [incomingCards, List.filter_cons, hm]
  · simp [incomingCards, List.filter_cons, hm]

/-- The second loop of the exchange succeeds when every pending seat has a
receiver holding a hand, and adds to each hand exactly the cards routed to
that seat, keeping the key list. -/
lemma extendAllPending_count (mapping : List (String × String))
    (pending : List (String × List Card)) :
    ∀ hands : List (String × List Card),
      (∀ e ∈ pending, ∃ t, dlookup mapping e.1 = some t ∧ t ∈ dkeys hands) →
      ∃ hands2, extendAllPending mapping hands pending = some hands2 ∧
        (∀ q x, List.count x (dget hands2 q []) =
          List.count x (dget hands q []) + List.count x (incomingCards mapping pending q)) ∧
        dkeys hands2 = dkeys hands := by
  induction pending with
  | nil =>
    intro hands _
    refine ⟨hands, rfl, ?_, rfl⟩
    intro q x
    simp [incomingCards]
  | cons e0 rest ih =>
    obtain ⟨pid, cs⟩ := e0
    intro hands hwf
    obtain ⟨t, hmt, htk⟩ := hwf (pid, cs) (List.mem_cons_self _ _)
    obtain ⟨ht, hlt⟩ := dlookup_isSome_of_mem_dkeys hands t htk
    have hwf' : ∀ e ∈ rest, ∃ u, dlookup mapping e.1 = some u ∧
        u ∈ dkeys (dset hands t (ht ++ cs)) := by
      intro e he
      obtain ⟨u, h1, h2⟩ := hwf e (List.mem_cons_of_mem _ he)
      exact ⟨u, h1, by rw [dkeys_dset_of_mem hands t (ht ++ cs) htk]; exact h2⟩
    obtain ⟨hands2, hext, hcnt, hkeys⟩ := ih (dset hands t (ht ++ cs)) hwf'
    refine ⟨hands2, ?_, ?_, ?_⟩
    · simp only [extendAllPending, hmt, hlt]
      exact hext
    · intro q x
      rw [hcnt q x, incomingCards_cons, List.count_append]
      by_cases hq : q = t
      · rw [hq]
        have e2 : dget (dset hands t (ht ++ cs)) t [] = ht ++ cs := by
          simp [dget, dlookup_dset_self]
        have e3 : dget hands t [] = ht := by simp [dget, hlt]
        rw [e2, e3, if_pos hmt, List.count_append]
        omega
      · have e2 : dget (dset hands t (ht ++ cs)) q [] = dget hands q [] := by
          simp [dget, dlookup_dset_ne hands t q (ht ++ cs) hq]
        have hne : ¬ dlookup mapping pid = some q := by
          rw [hmt]
          intro hh
          exact hq (Option.some.inj hh).symm
        rw [e2, if_neg hne]
        simp
    · rw [hkeys, dkeys_dset_of_mem hands t (ht ++ cs) htk]

/-- With duplicate-free keys, flattening the values filtered on one key
yields exactly that key's stored value. -/
lemma filter_key_flatten (d : List (String × List Card)) (k : String)
    (hnd : (dkeys d).Nodup) :
    ((d.filter (fun e => e.1 == k)).map Prod.snd).flatten = dget d k [] := by
  induction d with
  | nil => simp [dget, dlookup]
  | cons kv rest ih =>
    obtain ⟨k0, v0⟩ := kv
    have h1 : k0 ∉ dkeys rest := (List.nodup_cons.mp hnd).1
    have h2 : (dkeys rest).Nodup := (List.nodup_cons.mp hnd).2
    by_cases hk : k0 = k
    · subst hk
      have hrest : rest.filter (fun e => e.1 == k0) = [] := by
        rw [List.filter_eq_nil_iff]
        intro e he
        simp only [beq_iff_eq]
        intro hh
        exact h1 (hh ▸ List.mem_map_of_mem Prod.fst he)
      simp [List.filter_cons, hrest, dget, dlookup]
    · have hc : ¬ ((fun e => e.1 == k) ((k0, v0)) = true) := by
        simpa using hk
      rw [List.filter_cons, if_neg hc, ih h2]
      have hne : ¬ k0 = k := hk
      simp [dget, dlookup, hne]

/-- Folding assignments over an enumeration never touches keys outside it. -/
lemma dlookup_foldl_dset_other {β : Type} (f : Nat × String → β) (l : List (Nat × String))
    (k : String) (hk : ∀ ip ∈ l, ip.2 ≠ k) :
    ∀ m0 : List (String × β),
      dlookup (l.foldl (fun m ip => dset m ip.2 (f ip)) m0) k = dlookup m0 k := by
  induction l with
  | nil =>
    intro m0
    rfl
  | cons ip0 l ih =>
    intro m0
    rw [List.foldl_cons, ih (fun ip hip => hk ip (List.mem_cons_of_mem _ hip))]
    exact dlookup_dset_ne m0 ip0.2 k (f ip0)
      (fun hh => hk ip0 (List.mem_cons_self _ _) hh.symm)

/-- Folding assignments over an enumeration with duplicate-free names gives
each name its own assigned value. -/
lemma dlookup_foldl_dset_self {β : Type} (f : Nat × String → β) :
    ∀ l : List (Nat × String), (l.map Prod.snd).Nodup →
      ∀ (m0 : List (String × β)) (ip : Nat × String), ip ∈ l →
        dlookup (l.foldl (fun m ip => dset m ip.2 (f ip)) m0) ip.2 = some (f ip) := by
  intro l
  induction l with
  | nil =>
    intro _ m0 ip hip
    exact absurd hip (List.not_mem_nil _)
  | cons ip0 l ih =>
    intro hnd m0 ip hip
    have h1 : ip0.2 ∉ l.map Prod.snd := (List.nodup_cons.mp hnd).1
    have h2 : (l.map Prod.snd).Nodup := (List.nodup_cons.mp hnd).2
    rw [List.foldl_cons]
    rcases List.mem_cons.mp hip with h0 | h0
    · rw [h0]
      rw [dlookup_foldl_dset_other f l ip0.2
        (fun ip' hip' hh => h1 (hh ▸ List.mem_map_of_mem Prod.snd hip'))]
      exact dlookup_dset_self m0 ip0.2 (f ip0)
    · exact ih h2 (dset m0 ip0.2 (f ip0)) ip h0

/-- pass_map sends each seat to the receiver demanded by the direction:
looked up at the seat in position i it yields the seat in position
(i+1) mod size, (i+size-1) mod size or (i+2) mod size for directions
0, 1 and 2, and the seat itself for any other direction. -/
lemma pass_map_lookup (players : List PlayerState) (direction : Nat)
    (hnd : (players.map PlayerState.id).Nodup) (i : Nat)
    (hi : i < (players.map PlayerState.id).length) :
    dlookup (pass_map players direction) ((players.map PlayerState.id).getD i "") =
      some (
        if direction = 0 then
          (players.map PlayerState.id).getD
            ((i + 1) % (players.map PlayerState.id).length) ""
        else if direction = 1 then
          (players.map PlayerState.id).getD
            ((i + (players.map PlayerState.id).length - 1) %
              (players.map PlayerState.id).length) ""
        else if direction = 2 then
          (players.map PlayerState.id).getD
            ((i + 2) % (players.map PlayerState.id).length) ""
        else (players.map PlayerState.id).getD i "") := by
  have hienum : i < (players.map PlayerState.id).enum.length := by
    rw [List.enum_length]
    exact hi
  have hentry : (i, (players.map PlayerState.id).getD i "") ∈
      (players.map PlayerState.id).enum := by
    rw [List.getD_eq_getElem (players.map PlayerState.id) "" hi]
    rw [← List.getElem_enum (players.map PlayerState.id) i hienum]
    exact List.getElem_mem _
  have hnd' : ((players.map PlayerState.id).enum.map Prod.snd).Nodup := by
    rw [List.enum_map_snd]
    exact hnd
  have h := dlookup_foldl_dset_self
    (fun ip =>
      if direction = 0 then
        (players.map PlayerState.id).getD
          ((ip.1 + 1) % (players.map PlayerState.id).length) ""
      else if direction = 1 then
        (players.map PlayerState.id).getD
          ((ip.1 + (players.map PlayerState.id).length - 1) %
            (players.map PlayerState.id).length) ""
      else if direction = 2 then
        (players.map PlayerState.id).getD
          ((ip.1 + 2) % (players.map PlayerState.id).length) ""
      else ip.2)
    (players.map PlayerState.id).enum hnd' []
    (i, (players.map PlayerState.id).getD i "") hentry
  exact h

/-- Receiver seat index for a pass direction among four seats. -/
def recvIdx (dir i : Nat) : Nat :=
  if dir = 0 then (i + 1) % 4
  else if dir = 1 then (i + 3) % 4
  else if dir = 2 then (i + 2) % 4
  else i

/-- Sender seat index: the inverse of recvIdx among four seats. -/
def sendIdx (dir i : Nat) : Nat :=
  if dir = 0 then (i + 3) % 4
  else if dir = 1 then (i + 1) % 4
  else if dir = 2 then (i + 2) % 4
  else i

/-- Bounded arithmetic facts about the send and receive index maps. -/
lemma recv_send_arith : ∀ dir < 3, ∀ i < 4, ∀ j < 4,
    sendIdx dir i < 4 ∧ recvIdx dir i < 4 ∧
      (recvIdx dir j = i ↔ j = sendIdx dir i) := by decide

/-- Sorting every hand keeps each hand's multiset of cards. -/
lemma count_dget_sortAll (hands : List (String × List Card)) (q : String) (x : Card) :
    List.count x (dget (hands.map (fun kv => (kv.1, sortHand kv.2))) q []) =
      List.count x (dget hands q []) := by
  unfold dget
  rw [dlookup_map_entry sortHand hands q]
  cases hq : dlookup hands q with
  | none => rfl
  | some v =>
    show List.count x (sortHand v) = List.count x v
    exact (List.perm_insertionSort _ v).count_eq x

/-- C3 claim: the pass exchange fires exactly on the submission that
completes all four seats.  An accepted submission that leaves the table
incomplete only stores that seat's three chosen cards and changes nothing
else; the completing submission removes every seat's chosen cards from its
hand and merges them into the hand of the receiver given by the round's
direction, after which pending_pass is empty, the phase is playing and
current_turn is the seat now holding the two of clubs; the receiver mapping
follows the direction (0: seat i+1, 1: seat i-1, 2: seat i+2, mod 4); any
submission outside the passing phase is rejected with False and no change;
and start_round sets the direction to round_index mod 4, a hold round
skipping the passing phase entirely with no exchange. -/
theorem c3_pass_exchange (s : GameState) (pid : String) (cards : List Card)
    (hph : s.phase = "passing")
    (hlen3 : cards.length = 3)
    (hin : ∀ c ∈ cards, c ∈ dget s.hands pid [])
    (hcnd : cards.Nodup)
    (hp4 : s.players.length = 4)
    (hids : (s.players.map PlayerState.id).Nodup)
    (hhk : dkeys s.hands = s.players.map PlayerState.id)
    (hpk : (dkeys s.pending_pass).Nodup)
    (hpsub : ∀ q ∈ dkeys s.pending_pass, q ∈ s.players.map PlayerState.id)
    (hpidm : pid ∈ s.players.map PlayerState.id)
    (hwfp : ∀ e ∈ s.pending_pass, e.2.Nodup ∧ ∀ c ∈ e.2, c ∈ dget s.hands e.1 [])
    (h2c : two_clubs ∈ handsUnion s.hands)
    (hdir : s.pass_dir < 3) :
    ((dset s.pending_pass pid cards).length < s.players.length →
      submit_pass s pid cards =
        some ({ s with pending_pass := dset s.pending_pass pid cards }, true))
    ∧
    ((∀ q ∈ s.players.map PlayerState.id, q ∈ dkeys (dset s.pending_pass pid cards)) →
      ∃ s', submit_pass s pid cards = some (s', true)
        ∧ s'.pending_pass = []
        ∧ s'.phase = "playing"
        ∧ (∃ p, s'.current_turn = some p ∧ ∃ e ∈ s'.hands, e.1 = p ∧ two_clubs ∈ e.2)
        ∧ (∃ kept : Nat → List Card, ∀ i < 4,
            (dget s.hands ((s.players.map PlayerState.id).getD i "") []).Perm
              (dget (dset s.pending_pass pid cards)
                ((s.players.map PlayerState.id).getD i "") [] ++ kept i)
            ∧ (dget s'.hands ((s.players.map PlayerState.id).getD i "") []).Perm
              (kept i ++ dget (dset s.pending_pass pid cards)
                ((s.players.map PlayerState.id).getD (sendIdx s.pass_dir i) "") [])))
    ∧
    (∀ i < 4, dlookup (pass_map s.players s.pass_dir)
        ((s.players.map PlayerState.id).getD i "") =
      some ((s.players.map PlayerState.id).getD (recvIdx s.pass_dir i) ""))
    ∧
    (∀ (s2 : GameState) (pid2 : String) (cards2 : List Card), s2.phase ≠ "passing" →
      submit_pass s2 pid2 cards2 = some (s2, false))
    ∧
    (∀ (s0 : GameState) (deck : List Card),
      (start_round s0 deck).pass_dir = s0.round_index % 4 ∧
      (s0.round_index % 4 = 3 →
        (start_round s0 deck).phase = "playing" ∧
          (start_round s0 deck).pending_pass = [])) := by
  have h1 : ¬ s.phase ≠ "passing" := by
    rw [hph]
    exact fun hh => hh rfl
  have h2 : ¬ cards.length ≠ 3 := by
    rw [hlen3]
    exact fun hh => hh rfl
  have hanyf : cards.any (fun c => decide (c ∉ dget s.hands pid [])) = false := by
    rw [List.any_eq_false]
    intro c hc
    simp only [decide_eq_true_eq]
    exact fun hn => hn (hin c hc)
  have hany : ¬ cards.any (fun c => decide (c ∉ dget s.hands pid [])) = true := by
    rw [hanyf]
    exact Bool.false_ne_true
  have hlenmap : (s.players.map PlayerState.id).length = 4 := by
    rw [List.length_map]
    exact hp4
  have hmapC : ∀ i < 4, dlookup (pass_map s.players s.pass_dir)
      ((s.players.map PlayerState.id).getD i "") =
      some ((s.players.map PlayerState.id).getD (recvIdx s.pass_dir i) "") := by
    intro i hi
    have hi' : i < (s.players.map PlayerState.id).length := by omega
    have h := pass_map_lookup s.players s.pass_dir hids i hi'
    rw [hlenmap] at h
    rw [h]
    rcases (show s.pass_dir = 0 ∨ s.pass_dir = 1 ∨ s.pass_dir = 2 by omega) with hd | hd | hd
    · rw [hd]
      simp [recvIdx]
    · rw [hd]
      have h41 : i + 4 - 1 = i + 3 := by omega
      rw [h41]
      simp [recvIdx]
    · rw [hd]
      simp [recvIdx]
  have hpnd' : (dkeys (dset s.pending_pass pid cards)).Nodup :=
    dkeys_dset_nodup s.pending_pass pid cards hpk
  have hpsub' : ∀ q ∈ dkeys (dset s.pending_pass pid cards),
      q ∈ s.players.map PlayerState.id := by
    intro q hq
    rcases List.mem_cons.mp (dkeys_dset_subset s.pending_pass pid cards hq) with h0 | h0
    · rw [h0]
      exact hpidm
    · exact hpsub q h0
  have hwf1 : ∀ e ∈ dset s.pending_pass pid cards,
      e.2.Nodup ∧ (∀ c ∈ e.2, c ∈ dget s.hands e.1 []) ∧ e.1 ∈ dkeys s.hands := by
    intro e he
    rcases mem_dset s.pending_pass pid cards e he with hold | hnew
    · obtain ⟨ha, hb⟩ := hwfp e hold
      refine ⟨ha, hb, ?_⟩
      rw [hhk]
      exact hpsub e.1 (List.mem_map_of_mem Prod.fst hold)
    · rw [hnew]
      refine ⟨hcnd, hin, ?_⟩
      rw [hhk]
      exact hpidm
  obtain ⟨hands1, hrem, hcnt1, hkeys1⟩ :=
    removeAllPending_count (dset s.pending_pass pid cards) s.hands hpnd' hwf1
  have hwf2 : ∀ e ∈ dset s.pending_pass pid cards,
      ∃ t, dlookup (pass_map s.players s.pass_dir) e.1 = some t ∧ t ∈ dkeys hands1 := by
    intro e he
    have hq : e.1 ∈ s.players.map PlayerState.id :=
      hpsub' e.1 (List.mem_map_of_mem Prod.fst he)
    obtain ⟨j, hj, hje⟩ := List.mem_iff_getElem.mp hq
    have hj4 : j < 4 := by omega
    have hgd : (s.players.map PlayerState.id).getD j "" = e.1 := by
      rw [List.getD_eq_getElem (s.players.map PlayerState.id) "" hj]
      exact hje
    refine ⟨(s.players.map PlayerState.id).getD (recvIdx s.pass_dir j) "", ?_, ?_⟩
    · rw [← hgd]
      exact hmapC j hj4
    · rw [hkeys1, hhk]
      have hr4 : recvIdx s.pass_dir j < 4 :=
        (recv_send_arith s.pass_dir hdir j hj4 j hj4).2.1
      have hr' : recvIdx s.pass_dir j < (s.players.map PlayerState.id).length := by omega
      rw [List.getD_eq_getElem (s.players.map PlayerState.id) "" hr']
      exact List.getElem_mem _
  obtain ⟨hands2, hext, hcnt2, hkeys2⟩ :=
    extendAllPending_count (pass_map s.players s.pass_dir) (dset s.pending_pass pid cards)
      hands1 hwf2
  have hle : ∀ q x, List.count x (dget (dset s.pending_pass pid cards) q []) ≤
      List.count x (dget s.hands q []) := by
    intro q x
    cases hl : dlookup (dset s.pending_pass pid cards) q with
    | none =>
      have hnil : dget (dset s.pending_pass pid cards) q [] = [] := by simp [dget, hl]
      rw [hnil]
      simp
    | some cs' =>
      have hmem := mem_of_dlookup (dset s.pending_pass pid cards) q cs' hl
      obtain ⟨hn, hs, _⟩ := hwf1 (q, cs') hmem
      have hn' : cs'.Nodup := hn
      have hs' : ∀ c ∈ cs', c ∈ dget s.hands q [] := hs
      have hcs : dget (dset s.pending_pass pid cards) q [] = cs' := by simp [dget, hl]
      rw [hcs]
      by_cases hx : x ∈ cs'
      · have hc1 : List.count x cs' ≤ 1 := List.nodup_iff_count_le_one.mp hn' x
        have hc2 : 0 < List.count x (dget s.hands q []) :=
          List.count_pos_iff.mpr (hs' x hx)
        omega
      · rw [List.count_eq_zero_of_not_mem hx]
        exact Nat.zero_le _
  have hinc : ∀ i < 4, incomingCards (pass_map s.players s.pass_dir)
      (dset s.pending_pass pid cards) ((s.players.map PlayerState.id).getD i "") =
      dget (dset s.pending_pass pid cards)
        ((s.players.map PlayerState.id).getD (sendIdx s.pass_dir i) "") [] := by
    intro i hi4
    have hsend4 : sendIdx s.pass_dir i < 4 :=
      (recv_send_arith s.pass_dir hdir i hi4 i hi4).1
    have hfc : (dset s.pending_pass pid cards).filter
        (fun e => dlookup (pass_map s.players s.pass_dir) e.1 ==
          some ((s.players.map PlayerState.id).getD i "")) =
        (dset s.pending_pass pid cards).filter
          (fun e => e.1 == (s.players.map PlayerState.id).getD (sendIdx s.pass_dir i) "") := by
      apply List.filter_congr
      intro e he
      show (dlookup (pass_map s.players s.pass_dir) e.1 ==
          some ((s.players.map PlayerState.id).getD i "")) =
        (e.1 == (s.players.map PlayerState.id).getD (sendIdx s.pass_dir i) "")
      have hq : e.1 ∈ s.players.map PlayerState.id :=
        hpsub' e.1 (List.mem_map_of_mem Prod.fst he)
      obtain ⟨j, hj, hje⟩ := List.mem_iff_getElem.mp hq
      have hj4 : j < 4 := by omega
      have hgd : (s.players.map PlayerState.id).getD j "" = e.1 := by
        rw [List.getD_eq_getElem (s.players.map PlayerState.id) "" hj]
        exact hje
      have hmj := hmapC j hj4
      rw [hgd] at hmj
      have hr4 : recvIdx s.pass_dir j < 4 :=
        (recv_send_arith s.pass_dir hdir j hj4 j hj4).2.1
      have hi' : i < (s.players.map PlayerState.id).length := by omega
      have hsd' : sendIdx s.pass_dir i < (s.players.map PlayerState.id).length := by omega
      have hr'' : recvIdx s.pass_dir j < (s.players.map PlayerState.id).length := by omega
      have hiff : ((s.players.map PlayerState.id).getD (recvIdx s.pass_dir j) "" =
          (s.players.map PlayerState.id).getD i "") ↔ recvIdx s.pass_dir j = i := by
        rw [List.getD_eq_getElem (s.players.map PlayerState.id) "" hr'',
            List.getD_eq_getElem (s.players.map PlayerState.id) "" hi']
        exact hids.getElem_inj_iff
      have hiff2 : (e.1 = (s.players.map PlayerState.id).getD (sendIdx s.pass_dir i) "") ↔
          j = sendIdx s.pass_dir i := by
        rw [← hgd, List.getD_eq_getElem (s.players.map PlayerState.id) "" hj,
            List.getD_eq_getElem (s.players.map PlayerState.id) "" hsd']
        exact hids.getElem_inj_iff
      have harith : recvIdx s.pass_dir j = i ↔ j = sendIdx s.pass_dir i :=
        (recv_send_arith s.pass_dir hdir i hi4 j hj4).2.2
      by_cases hcond : recvIdx s.pass_dir j = i
      · have hl1 : (s.players.map PlayerState.id).getD (recvIdx s.pass_dir j) "" =
            (s.players.map PlayerState.id).getD i "" := hiff.mpr hcond
        have hl2 : e.1 = (s.players.map PlayerState.id).getD (sendIdx s.pass_dir i) "" :=
          hiff2.mpr (harith.mp hcond)
        have ha : (some ((s.players.map PlayerState.id).getD (recvIdx s.pass_dir j) "") ==
            some ((s.players.map PlayerState.id).getD i "")) = true :=
          beq_iff_eq.mpr (congrArg some hl1)
        have hb : (e.1 ==
            (s.players.map PlayerState.id).getD (sendIdx s.pass_dir i) "") = true :=
          beq_iff_eq.mpr hl2
        rw [hmj, ha, hb]
      · have hl1 : ¬ (s.players.map PlayerState.id).getD (recvIdx s.pass_dir j) "" =
            (s.players.map PlayerState.id).getD i "" := fun hh => hcond (hiff.mp hh)
        have hl2 : ¬ e.1 = (s.players.map PlayerState.id).getD (sendIdx s.pass_dir i) "" :=
          fun hh => hcond (harith.mpr (hiff2.mp hh))
        have ha : (some ((s.players.map PlayerState.id).getD (recvIdx s.pass_dir j) "") ==
            some ((s.players.map PlayerState.id).getD i "")) = false :=
          beq_eq_false_iff_ne.mpr (fun hh => hl1 (Option.some.inj hh))
        have hb : (e.1 ==
            (s.players.map PlayerState.id).getD (sendIdx s.pass_dir i) "") = false :=
          beq_eq_false_iff_ne.mpr hl2
        rw [hmj, ha, hb]
    unfold incomingCards
    rw [hfc]
    exact filter_key_flatten (dset s.pending_pass pid cards) _ hpnd'
  have hperm1 : ∀ i < 4,
      (dget s.hands ((s.players.map PlayerState.id).getD i "") []).Perm
        (dget (dset s.pending_pass pid cards)
          ((s.players.map PlayerState.id).getD i "") [] ++
          dget hands1 ((s.players.map PlayerState.id).getD i "") []) := by
    intro i _
    apply List.perm_iff_count.mpr
    intro x
    rw [List.count_append, hcnt1 ((s.players.map PlayerState.id).getD i "") x]
    have hq := hle ((s.players.map PlayerState.id).getD i "") x
    omega
  have hperm2 : ∀ i < 4,
      (dget (hands2.map (fun kv => (kv.1, sortHand kv.2)))
          ((s.players.map PlayerState.id).getD i "") []).Perm
        (dget hands1 ((s.players.map PlayerState.id).getD i "") [] ++
          dget (dset s.pending_pass pid cards)
            ((s.players.map PlayerState.id).getD (sendIdx s.pass_dir i) "") []) := by
    intro i hi4
    apply List.perm_iff_count.mpr
    intro x
    rw [List.count_append, count_dget_sortAll hands2 _ x,
        hcnt2 ((s.players.map PlayerState.id).getD i "") x, hinc i hi4]
  refine ⟨?_, ?_, hmapC, ?_, ?_⟩
  · intro hlt
    simp only [submit_pass, if_neg h1, if_neg h2, if_neg hany, if_pos hlt]
  · intro hall
    have hsp : (s.players.map PlayerState.id).Subperm
        (dkeys (dset s.pending_pass pid cards)) := List.Nodup.subperm hids hall
    have hlen1 := hsp.length_le
    have h2l : (dkeys (dset s.pending_pass pid cards)).length =
        (dset s.pending_pass pid cards).length := List.length_map _ _
    have hfire : ¬ (dset s.pending_pass pid cards).length < s.players.length := by omega
    have hsubmit : submit_pass s pid cards =
        some ({ { s with pending_pass := dset s.pending_pass pid cards } with
          hands := hands2.map (fun kv => (kv.1, sortHand kv.2))
          pending_pass := []
          phase := "playing"
          current_turn :=
            find_two_clubs_player
              (hands2.map (fun kv => (kv.1, sortHand kv.2))) }, true) := by
      simp only [submit_pass, if_neg h1, if_neg h2, if_neg hany, if_neg hfire, hrem, hext]
    refine ⟨_, hsubmit, rfl, rfl, ?_, ?_⟩
    · have h2c1 := removeAllPending_mem (dset s.pending_pass pid cards) s.hands hands1
        two_clubs hrem h2c
      have h2c2 : two_clubs ∈ handsUnion hands2 :=
        extendAllPending_mem (pass_map s.players s.pass_dir)
          (dset s.pending_pass pid cards) hands1 hands2 two_clubs hext h2c1
      have h2c3 : two_clubs ∈
          handsUnion (hands2.map (fun kv => (kv.1, sortHand kv.2))) :=
        (handsUnion_sortAll hands2 two_clubs).mpr h2c2
      obtain ⟨p, hp⟩ := find_two_clubs_player_isSome _ h2c3
      exact ⟨p, hp, find_two_clubs_player_holder _ p hp⟩
    · refine ⟨fun i => dget hands1 ((s.players.map PlayerState.id).getD i "") [], ?_⟩
      intro i hi4
      exact ⟨hperm1 i hi4, hperm2 i hi4⟩
  · intro s2 pid2 cards2 hph2
    simp only [submit_pass, if_pos hph2]
  · intro s0 deck
    refine ⟨(start_round_fields s0 deck).2.2.2.2, ?_⟩
    intro h3
    rcases start_round_phase_cases s0 deck with ⟨_, hph', _⟩ | ⟨hd, _, _⟩
    · exact ⟨hph', (start_round_fields s0 deck).2.2.2.1⟩
    · exact absurd h3 hd

/-- Witness for C3 at a concrete state: in the passing phase of a fresh
4-seat round, seat A submitting its first three cards is accepted and only
stored, the other seats being still outstanding. -/
theorem c3_pass_exchange_witness :
    submit_pass sPass "A" ((dget sPass.hands "A" []).take 3) =
      some ({ sPass with
        pending_pass := dset sPass.pending_pass "A" ((dget sPass.hands "A" []).take 3) },
        true) :=
  (c3_pass_exchange sPass "A" ((dget sPass.hands "A" []).take 3)
    (by decide) (by decide) (by decide) (by decide) (by decide) (by decide) (by decide)
    (by decide) (by decide) (by decide) (by decide) (by decide) (by decide)).1
    (by decide)

end Hearts
